import Mathlib

/-!
Verification of the qa-bot repository's frontend and documented backend
behaviour.  JavaScript strings are modelled as lists of characters
(`JStr`), the browser `fetch` environment as a function from requests to
responses, and the two client stores (the localStorage-backed
conversation store and the documented MongoDB/Qdrant backend stores) as
explicit record states.
-/

namespace QABot

/-- JavaScript strings, modelled as lists of characters. -/
abbrev JStr := List Char

/-- The backquote character (string code 96), written numerically. -/
def backtick : Char := Char.ofNat 96

/-- JS regular-expression whitespace class, restricted to the ASCII range
    the sources process. -/
def isSpace (c : Char) : Bool :=
  c == ' ' || c == '\t' || c == '\n' || c == '\r' ||
    c == Char.ofNat 11 || c == Char.ofNat 12

/-- Characters matched by `.` in a JS regex without the dot-all flag:
    everything except a line terminator. -/
def isDot (c : Char) : Bool := !(c == '\n' || c == '\r')

/-- Line terminators, after which the multiline anchor matches. -/
def isTerm (c : Char) : Bool := c == '\n' || c == '\r'

/-- JS `String.replace` with a global single-character pattern:
    every occurrence of `c` is replaced by `rep`. -/
def replaceChar (c : Char) (rep : JStr) : JStr → JStr
  | [] => []
  | x :: t => (if x = c then rep else [x]) ++ replaceChar c rep t

/-- The HTML-escaping chain from `basicMarkdownToHtml`:
    `replace(&→&amp;)` then `replace(<→&lt;)` then `replace(>→&gt;)`. -/
def escapeHtml (s : JStr) : JStr :=
  replaceChar '>' ("&gt;".data)
    (replaceChar '<' ("&lt;".data)
      (replaceChar '&' ("&amp;".data) s))

/-- Split a string at the first occurrence of `pat`, returning the parts
    before and after it together with the decomposition equation
    (the equation serves the termination and soundness proofs). -/
def breakOnP (pat : JStr) : (s : JStr) →
    Option { p : JStr × JStr // s = p.1 ++ pat ++ p.2 }
  | [] =>
    if h : pat.isPrefixOf ([] : JStr) then
      some ⟨([], []), by
        have h' : pat <+: ([] : JStr) := List.isPrefixOf_iff_prefix.mp h
        have : pat = [] := List.prefix_nil.mp h'
        simp [this]⟩
    else none
  | c :: t =>
    if h : pat.isPrefixOf (c :: t) then
      some ⟨([], (c :: t).drop pat.length), by
        have h' : pat <+: (c :: t) := List.isPrefixOf_iff_prefix.mp h
        obtain ⟨u, hu⟩ := h'
        simp [← hu]⟩
    else
      match breakOnP pat t with
      | some p => some ⟨(c :: p.val.1, p.val.2), by
          have := p.property; simp [this]⟩
      | none => none

/-- The three-backquote delimiter of fenced code blocks. -/
def ticks : JStr := [backtick, backtick, backtick]

/-- Literal text emitted before the escaped code of a fenced block. -/
def preT : JStr := "<pre class=\"code-block\"><code>".data

/-- Literal text emitted between the code and its copy-button attribute. -/
def midT : JStr := "</code><button class=\"copy-btn\" data-code=\"".data

/-- Literal text closing the copy button and the block. -/
def endT : JStr := "\">Copiar</button></pre>".data

/-- The replacer applied to each fenced code block: the (already escaped)
    code is escaped again, and quotes are entity-escaped inside the
    `data-code` attribute. -/
def codeBlockTemplate (code : JStr) : JStr :=
  let esc := escapeHtml code
  preT ++ esc ++ midT ++ replaceChar '"' ("&quot;".data) esc ++ endT

/-- Global replacement of lazily-matched ` ```code``` ` blocks, as the JS
    regex engine performs it: repeatedly take the first delimiter, the
    nearest closing delimiter, and continue after the match. -/
def codeBlockPass (s : JStr) : JStr :=
  match breakOnP ticks s with
  | none => s
  | some p =>
    match breakOnP ticks p.val.2 with
    | none => s
    | some q => p.val.1 ++ codeBlockTemplate q.val.1 ++ codeBlockPass q.val.2
termination_by s.length
decreasing_by
  have hp := congrArg List.length p.property
  have hq := congrArg List.length q.property
  have hl : ticks.length = 3 := rfl
  simp only [List.length_append, hl] at hp hq
  omega

/-- Heading match at a line start: the hash marks, then a mandatory
    greedy whitespace run (which, like `\s` in JS, crosses newlines),
    then the rest of the line as the capture.  Returns the replacement
    text and the remaining input. -/
def headerMatchAt (hs openT closeT : JStr) (s : JStr) : Option (JStr × JStr) :=
  if hs.isPrefixOf s then
    let rest := s.drop hs.length
    let sp := rest.takeWhile isSpace
    if sp.length = 0 then none
    else
      let rest2 := rest.drop sp.length
      let content := rest2.takeWhile isDot
      some (openT ++ content ++ closeT, rest2.drop content.length)
  else none

/-- Scanner for one `^<hashes>\s+(.*)$` global multiline replacement;
    the boolean tracks whether the position is at a line start. -/
def headerGo (hs openT closeT : JStr) : Bool → JStr → JStr
  | _, [] => []
  | atStart, c :: t =>
    if atStart then
      match hm : headerMatchAt hs openT closeT (c :: t) with
      | some r => r.1 ++ headerGo hs openT closeT false r.2
      | none => c :: headerGo hs openT closeT (isTerm c) t
    else c :: headerGo hs openT closeT (isTerm c) t
termination_by _ s => s.length
decreasing_by
  · simp only [headerMatchAt] at hm
    split at hm
    · split at hm
      · exact absurd hm (by simp)
      · simp only [Option.some.injEq] at hm
        have h2 : r.2 = (((c :: t).drop hs.length).drop
            (((c :: t).drop hs.length).takeWhile isSpace).length).drop
            ((((c :: t).drop hs.length).drop
              (((c :: t).drop hs.length).takeWhile isSpace).length).takeWhile isDot).length := by
          rw [← hm]
        rw [h2]
        simp only [List.length_drop]
        have hsp : (((c :: t).drop hs.length).takeWhile isSpace).length ≠ 0 := by
          assumption
        simp only [List.length_cons]
        omega
    · exact absurd hm (by simp)
  · simp
  · simp

/-- One `^#+\s+(.*)$` replacement pass over the whole string. -/
def headerPass (hs openT closeT : JStr) (s : JStr) : JStr :=
  headerGo hs openT closeT true s

/-- Lazy capture for `(.*?)` followed by a literal `marker`: the shortest
    run of non-terminator characters after which `marker` occurs.  The
    decomposition equation is carried for the termination proofs. -/
def lazyCaptureP (marker : JStr) : (s : JStr) →
    Option { p : JStr × JStr // s = p.1 ++ marker ++ p.2 }
  | [] =>
    if h : marker.isPrefixOf ([] : JStr) then
      some ⟨([], []), by
        have h' : marker <+: ([] : JStr) := List.isPrefixOf_iff_prefix.mp h
        have : marker = [] := List.prefix_nil.mp h'
        simp [this]⟩
    else none
  | c :: t =>
    if h : marker.isPrefixOf (c :: t) then
      some ⟨([], (c :: t).drop marker.length), by
        have h' : marker <+: (c :: t) := List.isPrefixOf_iff_prefix.mp h
        obtain ⟨u, hu⟩ := h'
        simp [← hu]⟩
    else if isDot c then
      match lazyCaptureP marker t with
      | some p => some ⟨(c :: p.val.1, p.val.2), by
          have := p.property; simp [this]⟩
      | none => none
    else none

/-- Global replacement of `marker(.*?)marker` (used for `**bold**` and
    `*italics*`), emitting `openT capture closeT`. -/
def pairPass (marker openT closeT : JStr) (hm : marker ≠ []) : JStr → JStr
  | [] => []
  | c :: t =>
    if marker.isPrefixOf (c :: t) then
      match lazyCaptureP marker ((c :: t).drop marker.length) with
      | some p => openT ++ p.val.1 ++ closeT ++ pairPass marker openT closeT hm p.val.2
      | none => c :: pairPass marker openT closeT hm t
    else c :: pairPass marker openT closeT hm t
termination_by s => s.length
decreasing_by
  · have hp := congrArg List.length p.property
    have hml : 1 ≤ marker.length := by
      cases marker with
      | nil => exact absurd rfl hm
      | cons a b => simp
    simp only [List.length_drop, List.length_append, List.length_cons] at hp ⊢
    omega
  · simp
  · simp

/-- Global replacement of `` `([^`]+)` `` inline code: a nonempty run of
    non-backquote characters between backquotes. -/
def inlineCodePass : JStr → JStr
  | [] => []
  | c :: t =>
    if c = backtick then
      let run := t.takeWhile (fun d => !(d == backtick))
      match hr : t.drop run.length with
      | r0 :: rest2 =>
        if r0 = backtick ∧ run ≠ [] then
          "<code class=\"code-inline\">".data ++ run ++ "</code>".data ++
            inlineCodePass rest2
        else c :: inlineCodePass t
      | [] => c :: inlineCodePass t
    else c :: inlineCodePass t
termination_by s => s.length
decreasing_by
  · have h1 : (t.drop (t.takeWhile (fun d => !(d == backtick))).length).length =
        t.length - (t.takeWhile (fun d => !(d == backtick))).length := by simp
    rw [hr] at h1
    simp only [List.length_cons] at h1 ⊢
    omega
  · simp
  · simp
  · simp

/-- List-item match after the `-` or `*` marker at a line start:
    mandatory whitespace then a nonempty rest-of-line capture, including
    the end-of-string backtracking of the greedy `\s+` against `(.+)`. -/
def listItemMatchAt (s : JStr) : Option (JStr × JStr) :=
  let sp := s.takeWhile isSpace
  if sp.length = 0 then none
  else
    let after := s.drop sp.length
    let content := after.takeWhile isDot
    if content ≠ [] then
      some (content, after.drop content.length)
    else if after ≠ [] then none
    else
      let r := sp.reverse.dropWhile (fun c => !(isDot c))
      match r with
      | c :: _ => if 2 ≤ r.length then some ([c], sp.drop r.length) else none
      | [] => none

/-- Scanner for the global multiline `^(?:-|\*)\s+(.+)$` replacement. -/
def listItemGo : Bool → JStr → JStr
  | _, [] => []
  | atStart, c :: t =>
    if atStart ∧ (c = '-' ∨ c = '*') then
      match hm : listItemMatchAt t with
      | some r => "<li>".data ++ r.1 ++ "</li>".data ++ listItemGo false r.2
      | none => c :: listItemGo (isTerm c) t
    else c :: listItemGo (isTerm c) t
termination_by _ s => s.length
decreasing_by
  · simp only [listItemMatchAt] at hm
    split at hm
    · exact absurd hm (by simp)
    · split at hm
      · simp only [Option.some.injEq] at hm
        have h2 : r.2 = (t.drop (t.takeWhile isSpace).length).drop
            ((t.drop (t.takeWhile isSpace).length).takeWhile isDot).length := by
          rw [← hm]
        rw [h2]
        simp only [List.length_drop, List.length_cons]
        have hsp : ¬ (t.takeWhile isSpace).length = 0 := by assumption
        omega
      · split at hm
        · exact absurd hm (by simp)
        · split at hm
          · split at hm
            · simp only [Option.some.injEq] at hm
              have h2 : r.2 = (t.takeWhile isSpace).drop
                  ((t.takeWhile isSpace).reverse.dropWhile (fun c => !(isDot c))).length := by
                rw [← hm]
              rw [h2]
              have h3 : (t.takeWhile isSpace).length ≤ t.length :=
                (List.takeWhile_prefix isSpace :
                  t.takeWhile isSpace <+: t).length_le
              have h4 : 2 ≤ ((t.takeWhile isSpace).reverse.dropWhile
                  (fun c => !(isDot c))).length := by assumption
              simp only [List.length_drop, List.length_cons]
              omega
            · exact absurd hm (by simp)
          · exact absurd hm (by simp)
  · simp
  · simp

/-- Split at the last occurrence of `pat`. -/
def breakOnLastP (pat : JStr) (hpat : pat ≠ []) (s : JStr) :
    Option { p : JStr × JStr // s = p.1 ++ pat ++ p.2 } :=
  match breakOnP pat s with
  | none => none
  | some p =>
    match breakOnLastP pat hpat p.val.2 with
    | none => some p
    | some q => some ⟨(p.val.1 ++ pat ++ q.val.1, q.val.2), by
        have h1 := p.property
        have h2 := q.property
        rw [h2] at h1
        simpa [List.append_assoc] using h1⟩
termination_by s.length
decreasing_by
  have h1 := congrArg List.length p.property
  have hml : 1 ≤ pat.length := by
    cases pat with
    | nil => exact absurd rfl hpat
    | cons a b => simp
  simp only [List.length_append] at h1
  omega

/-- The single `(<li>.*<\/li>)` dot-all greedy wrap: from the first
    `<li>` to the last `</li>`, enclosed in `<ul>…</ul>`. -/
def liWrapPass (s : JStr) : JStr :=
  match breakOnP ("<li>".data) s with
  | none => s
  | some p =>
    match breakOnLastP ("</li>".data) (by simp) p.val.2 with
    | none => s
    | some q =>
      p.val.1 ++ "<ul>".data ++ "<li>".data ++ q.val.1 ++
        "</li>".data ++ "</ul>".data ++ q.val.2

/-- The markdown transformation chain applied after HTML escaping, in
    source order: fenced code, h3/h2/h1, bold, italics, inline code,
    list items, list wrap, newline to `<br />`. -/
def mdTransforms (h : JStr) : JStr :=
  replaceChar '\n' ("<br />".data)
    (liWrapPass
      (listItemGo true
        (inlineCodePass
          (pairPass ['*'] ("<em>".data) ("</em>".data) (by simp)
            (pairPass ['*', '*'] ("<strong>".data) ("</strong>".data) (by simp)
              (headerPass ['#'] ("<h1>".data) ("</h1>".data)
                (headerPass ['#', '#'] ("<h2>".data) ("</h2>".data)
                  (headerPass ['#', '#', '#'] ("<h3>".data) ("</h3>".data)
                    (codeBlockPass h)))))))))

/-- The `basicMarkdownToHtml` converter; a null (`none`) or empty input
    is falsy in JS and yields the empty string. -/
def basicMarkdownToHtml (md : Option JStr) : JStr :=
  match md with
  | none => []
  | some s => if s = [] then [] else mdTransforms (escapeHtml s)

/-- A string is `Chunked toks safe` when it is a concatenation of whole
    tokens from `toks` and single characters satisfying `safe`. -/
inductive Chunked (toks : List JStr) (safe : Char → Prop) : JStr → Prop
  | nil : Chunked toks safe []
  | char {c : Char} {s : JStr} :
      safe c → Chunked toks safe s → Chunked toks safe (c :: s)
  | tok {t : JStr} {s : JStr} :
      t ∈ toks → Chunked toks safe s → Chunked toks safe (t ++ s)

/-- The exact tag fragments `basicMarkdownToHtml` itself emits. -/
def tagToks : List JStr :=
  [preT, midT, endT,
   "<h3>".data, "</h3>".data, "<h2>".data, "</h2>".data,
   "<h1>".data, "</h1>".data, "<strong>".data, "</strong>".data,
   "<em>".data, "</em>".data, "<code class=\"code-inline\">".data,
   "</code>".data, "<li>".data, "</li>".data, "<ul>".data, "</ul>".data,
   "<br />".data]

/-- The HTML entities the converter emits. -/
def ampToks : List JStr :=
  ["&amp;".data, "&lt;".data, "&gt;".data, "&quot;".data]

/-- The entities `escapeHtml` itself emits (no quote entity). -/
def ampToks3 : List JStr := ["&amp;".data, "&lt;".data, "&gt;".data]

/-- A character that is not an angle bracket. -/
def safeAngle (c : Char) : Prop := c ≠ '<' ∧ c ≠ '>'

/-- A character that is not an ampersand. -/
def safeAmp (c : Char) : Prop := c ≠ '&'

instance (c : Char) : Decidable (safeAngle c) := by
  unfold safeAngle; infer_instance

instance (c : Char) : Decidable (safeAmp c) := by
  unfold safeAmp; infer_instance

/-- Every `<` and `>` of the string lies inside a tag fragment the
    converter emitted. -/
def TagSafe (s : JStr) : Prop := Chunked tagToks safeAngle s

/-- Every `&` of the string starts one of the emitted HTML entities. -/
def AmpSafe (s : JStr) : Prop := Chunked ampToks safeAmp s

/-! `extractLinks` (frontend markdown utilities). -/

/-- The `[^\s)]` character class of `URL_REGEX`. -/
def isUrlChar (c : Char) : Bool := !(isSpace c) && !(c == ')')

/-- Case-insensitive literal prefix test, as the `i` regex flag gives. -/
def ciIsPrefixOf (pat : JStr) (s : JStr) : Bool :=
  pat.isPrefixOf (s.map Char.toLower)

/-- Match of the first `URL_REGEX` alternative `(https?:\/\/)[^\s)]+` at
    the current position: the matched text and the rest of the input. -/
def urlMatchAt (s : JStr) : Option (JStr × JStr) :=
  if ciIsPrefixOf ("https://".data) s then
    let run := (s.drop 8).takeWhile isUrlChar
    if run = [] then none
    else some (s.take (8 + run.length), s.drop (8 + run.length))
  else if ciIsPrefixOf ("http://".data) s then
    let run := (s.drop 7).takeWhile isUrlChar
    if run = [] then none
    else some (s.take (7 + run.length), s.drop (7 + run.length))
  else none

/-- Match of the anchored second alternative `^www\.[^\s)]+`. -/
def wwwMatchAt (s : JStr) : Option (JStr × JStr) :=
  if ciIsPrefixOf ("www.".data) s then
    let run := (s.drop 4).takeWhile isUrlChar
    if run = [] then none
    else some (s.take (4 + run.length), s.drop (4 + run.length))
  else none

/-- Global scan of `URL_REGEX`; the boolean records whether we are still
    at position 0, where alone the anchored `www.` alternative applies. -/
def urlScan : Bool → JStr → List JStr
  | _, [] => []
  | atStart, c :: t =>
    match hu : urlMatchAt (c :: t) with
    | some m => m.1 :: urlScan false m.2
    | none =>
      if atStart then
        match hw : wwwMatchAt (c :: t) with
        | some m => m.1 :: urlScan false m.2
        | none => urlScan false t
      else urlScan false t
termination_by _ s => s.length
decreasing_by
  · simp only [urlMatchAt] at hu
    split at hu
    · split at hu
      · exact absurd hu (by simp)
      · simp only [Option.some.injEq] at hu
        have h2 : m.2 = (c :: t).drop
            (8 + (((c :: t).drop 8).takeWhile isUrlChar).length) := by rw [← hu]
        rw [h2]
        simp only [List.length_drop, List.length_cons]
        omega
    · split at hu
      · split at hu
        · exact absurd hu (by simp)
        · simp only [Option.some.injEq] at hu
          have h2 : m.2 = (c :: t).drop
              (7 + (((c :: t).drop 7).takeWhile isUrlChar).length) := by rw [← hu]
          rw [h2]
          simp only [List.length_drop, List.length_cons]
          omega
      · exact absurd hu (by simp)
  · simp only [wwwMatchAt] at hw
    split at hw
    · split at hw
      · exact absurd hw (by simp)
      · simp only [Option.some.injEq] at hw
        have h2 : m.2 = (c :: t).drop
            (4 + (((c :: t).drop 4).takeWhile isUrlChar).length) := by rw [← hw]
        rw [h2]
        simp only [List.length_drop, List.length_cons]
        omega
    · exact absurd hw (by simp)
  · simp
  · simp

/-- An entry of the list `extractLinks` returns. -/
structure LinkEntry where
  url : JStr
  host : JStr
deriving DecidableEq, Repr

/-- Normalisation applied to each raw match: bare matches are prefixed
    with the https scheme. -/
def linkUrl (u : JStr) : JStr :=
  if ("http".data).isPrefixOf u then u else "https://".data ++ u

/-- The `extractLinks` function; `new URL(...).hostname` of the host
    environment is abstracted by the `parseHostname` parameter (a `none`
    result models the constructor throwing, which the source catches and
    skips). -/
def extractLinks (parseHostname : JStr → Option JStr) (text : Option JStr) :
    List LinkEntry :=
  match text with
  | none => []
  | some t =>
    if t = [] then []
    else
      let links := (urlScan true t).filterMap (fun u =>
        match parseHostname (linkUrl u) with
        | some h => some ⟨linkUrl u, h⟩
        | none => none)
      (links.enum.filter (fun p =>
        links.findIdx? (fun y => y.url == p.2.url) = some p.1)).map
        (fun p => p.2)

/-! The HTTP client model: requests, responses, and the `api` object of
    `frontend/src/services/api.js` (the `USE_MOCK` flag is `false` in the
    source, so only the real branches are modelled). -/

inductive Method
  | GET | POST | PATCH | DELETE
deriving DecidableEq, Repr

/-- A JSON or form-data value sent in a request. -/
inductive JVal
  | str (s : String)
  | nat (n : Nat)
  | file (name : String)
deriving DecidableEq, Repr

/-- One `fetch` request: method, path, JSON body and form-data fields. -/
structure Request where
  method : Method
  path : String
  body : List (String × JVal)
  form : List (String × JVal)
deriving DecidableEq, Repr

/-- A session record of the `GET /api/sessions/...` response. -/
structure SessionRec where
  session_id : String
  title : Option String
  updated_at : String
  document_ids : Option (List String)
  message_count : Nat
deriving DecidableEq, Repr

/-- A message record of the `GET .../messages` response. -/
structure MessageRec where
  role : String
  content : String
  created_at : String
deriving DecidableEq, Repr

/-- A parsed HTTP response: the `ok` flag and status, plus the JSON
    fields the client reads. -/
structure Resp where
  ok : Bool
  status : Nat
  answer : String
  language : String
  sources : List String
  session_id : String
  sessions : List SessionRec
  messages : List MessageRec
deriving DecidableEq, Repr

/-- The browser environment answering `fetch` requests. -/
abbrev Fetch := Request → Resp

/-- The error message thrown for a non-ok response. -/
def httpErr (status : Nat) : String := "HTTP " ++ toString status

/-- A file attached to a message, as the client sees it. -/
structure JFile where
  name : String
  size : Nat
deriving DecidableEq, Repr

/-- The upload request `api.send` builds for each attached file. -/
def uploadSendReq (sessionId : String) (f : String) : Request :=
  { method := .POST, path := "/api/upload", body := [],
    form := [("file", .file f), ("user_id", .str "default_user"),
             ("session_id", .str sessionId)] }

/-- The `POST /api/query` request `api.send` issues. -/
def queryReq (message sessionId : String) : Request :=
  { method := .POST, path := "/api/query",
    body := [("prompt", .str message), ("session_id", .str sessionId),
             ("user_id", .str "default_user"), ("top_k", .nat 10)],
    form := [] }

/-- The `GET /api/sessions/default_user` request. -/
def sessionsListReq : Request :=
  { method := .GET, path := "/api/sessions/default_user", body := [], form := [] }

/-- The `GET /api/session/{id}/messages` request. -/
def sessionMessagesReq (conversationId : String) : Request :=
  { method := .GET, path := "/api/session/" ++ conversationId ++ "/messages",
    body := [], form := [] }

/-- The `POST /api/session/create` request. -/
def sessionCreateReq : Request :=
  { method := .POST, path := "/api/session/create",
    body := [("user_id", .str "default_user")], form := [] }

/-- The upload request `api.uploadFiles` builds; the `session_id` field
    is appended only when the `sessionId` argument is truthy. -/
def uploadFilesReq (sessionId : Option String) (f : JFile) : Request :=
  { method := .POST, path := "/api/upload", body := [],
    form := [("file", .file f.name), ("user_id", .str "default_user")] ++
      (match sessionId with
       | some s => if s ≠ "" then [("session_id", .str s)] else []
       | none => []) }

/-- The `DELETE /api/session/{id}` request. -/
def sessionDeleteReq (conversationId : String) : Request :=
  { method := .DELETE, path := "/api/session/" ++ conversationId,
    body := [], form := [] }

/-- The `PATCH /api/session/{id}/title` request. -/
def sessionTitleReq (conversationId newTitle : String) : Request :=
  { method := .PATCH, path := "/api/session/" ++ conversationId ++ "/title",
    body := [("title", .str newTitle)], form := [] }

/-- The `GET /api/session/{id}/documents` request. -/
def sessionDocumentsReq (conversationId : String) : Request :=
  { method := .GET, path := "/api/session/" ++ conversationId ++ "/documents",
    body := [], form := [] }

/-- The `GET /api/documents/default_user` request. -/
def documentsListReq : Request :=
  { method := .GET, path := "/api/documents/default_user", body := [], form := [] }

/-- The `DELETE /api/document/{id}` request. -/
def documentDeleteReq (documentId : String) : Request :=
  { method := .DELETE, path := "/api/document/" ++ documentId,
    body := [], form := [] }

namespace Api

/-- The session id `api.send` uses: the given conversation id when
    truthy, else a fresh `crypto.randomUUID()`. -/
def sendSessionId (conversationId : Option String) (freshUuid : String) : String :=
  match conversationId with
  | some c => if c = "" then freshUuid else c
  | none => freshUuid

/-- The upload loop inside `api.send`: one POST per file, aborting with
    a thrown error at the first non-ok response. -/
def sendUploads (F : Fetch) (sessionId : String) :
    List String → Except String Unit × List Request
  | [] => (.ok (), [])
  | f :: fs =>
    let r := uploadSendReq sessionId f
    if (F r).ok then
      let res := sendUploads F sessionId fs
      (res.1, r :: res.2)
    else (.error ("Upload failed: " ++ httpErr (F r).status), [r])

/-- The value `api.send` resolves with. -/
structure SendResult where
  reply : String
  conversationId : String
  language : String
  sources : List String
deriving DecidableEq, Repr

/-- `api.send`: optional uploads, then the query; the second component
    is the list of requests issued, in order. -/
def send (F : Fetch) (conversationId : Option String) (message : String)
    (files : List String) (freshUuid : String) :
    Except String SendResult × List Request :=
  let sessionId := sendSessionId conversationId freshUuid
  let up : Except String Unit × List Request :=
    if files.length > 0 then sendUploads F sessionId files else (.ok (), [])
  match up.1 with
  | .error e => (.error e, up.2)
  | .ok _ =>
    let qr := queryReq message sessionId
    let resp := F qr
    if resp.ok then
      (.ok { reply := resp.answer, conversationId := sessionId,
             language := resp.language, sources := resp.sources },
       up.2 ++ [qr])
    else (.error (httpErr resp.status), up.2 ++ [qr])

/-- A conversation summary as `api.listConversations` returns it. -/
structure ConvSummary where
  conversationId : String
  title : String
  updated : String
  documentIds : List String
  messageCount : Nat
deriving DecidableEq, Repr

/-- The fallback title `s.title || "Session " + id.substring(0,8)`. -/
def sessionTitleOf (s : SessionRec) : String :=
  match s.title with
  | some t => if t = "" then "Session " ++ s.session_id.take 8 else t
  | none => "Session " ++ s.session_id.take 8

/-- `api.listConversations`. -/
def listConversations (F : Fetch) :
    Except String (List ConvSummary) × List Request :=
  let r := sessionsListReq
  let resp := F r
  if resp.ok then
    (.ok (resp.sessions.map (fun s =>
      { conversationId := s.session_id, title := sessionTitleOf s,
        updated := s.updated_at, documentIds := s.document_ids.getD [],
        messageCount := s.message_count })), [r])
  else (.error (httpErr resp.status), [r])

/-- A message as `api.getMessages` returns it. -/
structure MsgOut where
  role : String
  content : String
  timestamp : String
deriving DecidableEq, Repr

/-- `api.getMessages`. -/
def getMessages (F : Fetch) (conversationId : String) :
    Except String (List MsgOut) × List Request :=
  let r := sessionMessagesReq conversationId
  let resp := F r
  if resp.ok then
    (.ok (resp.messages.map (fun m =>
      { role := m.role, content := m.content, timestamp := m.created_at })), [r])
  else (.error (httpErr resp.status), [r])

/-- The value `api.newConversation` resolves with. -/
structure NewConv where
  conversationId : String
  title : String
deriving DecidableEq, Repr

/-- `api.newConversation`. -/
def newConversation (F : Fetch) : Except String NewConv × List Request :=
  let r := sessionCreateReq
  let resp := F r
  if resp.ok then
    (.ok { conversationId := resp.session_id,
           title := "New session " ++ resp.session_id.take 8 }, [r])
  else (.error (httpErr resp.status), [r])

/-- An entry of the list `api.uploadFiles` resolves with. -/
structure UploadOut where
  name : String
  size : Nat
  uploaded : Bool
deriving DecidableEq, Repr

/-- `api.uploadFiles`: one POST per file, aborting at the first non-ok
    response. -/
def uploadFiles (F : Fetch) (sessionId : Option String) :
    List JFile → Except String (List UploadOut) × List Request
  | [] => (.ok [], [])
  | f :: fs =>
    let r := uploadFilesReq sessionId f
    let resp := F r
    if resp.ok then
      let res := uploadFiles F sessionId fs
      (res.1.map (fun l =>
        { name := f.name, size := f.size, uploaded := true } :: l), r :: res.2)
    else (.error (httpErr resp.status), [r])

/-- `api.deleteConversation`; the resolved value is the parsed JSON. -/
def deleteConversation (F : Fetch) (conversationId : String) :
    Except String Resp × List Request :=
  let r := sessionDeleteReq conversationId
  let resp := F r
  if resp.ok then (.ok resp, [r]) else (.error (httpErr resp.status), [r])

/-- `api.renameConversation`. -/
def renameConversation (F : Fetch) (conversationId newTitle : String) :
    Except String Resp × List Request :=
  let r := sessionTitleReq conversationId newTitle
  let resp := F r
  if resp.ok then (.ok resp, [r]) else (.error (httpErr resp.status), [r])

/-- `api.getSessionDocuments`. -/
def getSessionDocuments (F : Fetch) (conversationId : String) :
    Except String Resp × List Request :=
  let r := sessionDocumentsReq conversationId
  let resp := F r
  if resp.ok then (.ok resp, [r]) else (.error (httpErr resp.status), [r])

/-- `api.listDocuments`. -/
def listDocuments (F : Fetch) : Except String Resp × List Request :=
  let r := documentsListReq
  let resp := F r
  if resp.ok then (.ok resp, [r]) else (.error (httpErr resp.status), [r])

/-- `api.deleteDocument`. -/
def deleteDocument (F : Fetch) (documentId : String) :
    Except String Resp × List Request :=
  let r := documentDeleteReq documentId
  let resp := F r
  if resp.ok then (.ok resp, [r]) else (.error (httpErr resp.status), [r])

end Api

/-! The localStorage-backed store of `useLocalStore`. -/

/-- A conversation entry of the `chat.conversations` list. -/
structure Conv where
  id : String
  title : String
  createdAt : Nat
deriving DecidableEq, Repr

/-- A chat message as the app state stores it. -/
structure Msg where
  id : String
  role : String
  content : String
  createdAt : Nat
deriving DecidableEq, Repr

/-- The two localStorage entries the store keeps; the `chat.messages`
    object (unique keys) is an association list. -/
structure LocalStore where
  conversations : List Conv
  messagesByConv : List (String × List Msg)
deriving DecidableEq, Repr

/-- JS object property read `m[k]`. -/
def objGet (m : List (String × List Msg)) (k : String) : Option (List Msg) :=
  (m.find? (fun kv => kv.1 == k)).map (fun kv => kv.2)

/-- JS object spread update `{...m, [k]: v}`. -/
def objSet (m : List (String × List Msg)) (k : String) (v : List Msg) :
    List (String × List Msg) :=
  if m.any (fun kv => kv.1 == k) then
    m.map (fun kv => if kv.1 == k then (k, v) else kv)
  else m ++ [(k, v)]

/-- JS rest-destructuring removal `const {[k]: unused, ...rest} = m`. -/
def objRemove (m : List (String × List Msg)) (k : String) :
    List (String × List Msg) :=
  m.filter (fun kv => !(kv.1 == k))

namespace Store

/-- `addConversation` of `useLocalStore`, at the shape the app calls it
    with (a conversation id and a title are always supplied). -/
def addConversation (ls : LocalStore) (conversationId title : String)
    (now : Nat) : LocalStore :=
  { ls with conversations :=
      { id := conversationId, title := title, createdAt := now } ::
        ls.conversations }

/-- `setMessagesForConv` of `useLocalStore`. -/
def setMessagesForConv (ls : LocalStore) (conversationId : String)
    (msgs : List Msg) : LocalStore :=
  { ls with messagesByConv := objSet ls.messagesByConv conversationId msgs }

/-- `appendMessage` of `useLocalStore`. -/
def appendMessage (ls : LocalStore) (conversationId : String) (msg : Msg) :
    LocalStore :=
  { ls with messagesByConv :=
      (objSet ls.messagesByConv conversationId
        ((objGet ls.messagesByConv conversationId).getD [] ++ [msg])) }

/-- `deleteConversation` of `useLocalStore`: filters the conversation out
    of the list and removes its key from the messages object. -/
def deleteConversation (ls : LocalStore) (conversationId : String) :
    LocalStore :=
  { conversations := ls.conversations.filter (fun c => !(c.id == conversationId)),
    messagesByConv := objRemove ls.messagesByConv conversationId }

end Store

/-! The `App` component state and handlers. -/

/-- The `useState` pieces of `App` relevant to the claims, plus the
    local store. -/
structure AppState where
  conversationId : Option String
  messages : List Msg
  sending : Bool
  uploading : Bool
  error : Option String
  files : List JFile
  store : LocalStore
deriving DecidableEq, Repr

/-- `ensureConversation`: reuse the current id or create a session via
    the backend, registering it in the local store. -/
def ensureConversation (F : Fetch) (st : AppState) (now : Nat) :
    Except String (String × AppState) × List Request :=
  match st.conversationId with
  | some conversationId => (.ok (conversationId, st), [])
  | none =>
    let res := Api.newConversation F
    match res.1 with
    | .ok nc =>
      (.ok (nc.conversationId,
        { st with conversationId := some nc.conversationId,
                  store := Store.setMessagesForConv
                    (Store.addConversation st.store nc.conversationId
                      "Nuevo chat" now)
                    nc.conversationId [] }), res.2)
    | .error e => (.error e, res.2)

/-- JS `String.prototype.trim`, removing whitespace from both ends. -/
def jsTrim (s : String) : String :=
  String.mk (((s.data.dropWhile isSpace).reverse.dropWhile isSpace).reverse)

/-- The system message shown after a successful upload. -/
def uploadOkMsgContent (n : Nat) : String :=
  "✅ " ++ toString n ++ " documento" ++ (if n > 1 then "s" else "") ++
    " procesado" ++ (if n > 1 then "s" else "") ++ " correctamente"

/-- The query phase of `handleSend`: `api.send` with an empty file list,
    appending the assistant reply and clearing the attachments on
    success. -/
def handleSendQuery (F : Fetch) (st : AppState) (conversationId : String)
    (userMsg : Msg) (u3 u4 : String) (now : Nat) (acc : List Request) :
    AppState × List Request :=
  let st5 := { st with sending := true }
  let q := Api.send F (some conversationId) userMsg.content [] u4
  match q.1 with
  | .ok r =>
    let botMsg : Msg :=
      { id := u3, role := "assistant", content := r.reply, createdAt := now }
    ({ st5 with messages := st5.messages ++ [botMsg],
                store := Store.appendMessage st5.store conversationId botMsg,
                files := [], sending := false }, acc ++ q.2)
  | .error _ =>
    ({ st5 with error := some "No se pudo enviar. Reintenta.",
                sending := false }, acc ++ q.2)

/-- `handleSend` of `App`: guard, ensure a conversation, append the user
    message, upload attachments (aborting on failure), then query. The
    `u*` arguments model the fresh UUIDs, `now` the clock. -/
def handleSend (F : Fetch) (st : AppState) (text : String)
    (u1 u2 u3 u4 : String) (now : Nat) : AppState × List Request :=
  if jsTrim text == "" || !(!st.sending && !st.uploading) || st.uploading then
    (st, [])
  else
    let st0 := { st with error := none }
    let ens := ensureConversation F st0 now
    match ens.1 with
    | .error _ => (st0, ens.2)
    | .ok (conversationId, st1) =>
      let userMsg : Msg :=
        { id := u1, role := "user", content := jsTrim text, createdAt := now }
      let st2 := { st1 with messages := st1.messages ++ [userMsg],
                            store := Store.appendMessage st1.store
                              conversationId userMsg }
      if st2.files.length > 0 then
        let st3 := { st2 with uploading := true }
        let up := Api.uploadFiles F (some conversationId) st3.files
        match up.1 with
        | .ok _ =>
          let upMsg : Msg :=
            { id := u2, role := "system",
              content := uploadOkMsgContent st3.files.length, createdAt := now }
          let st4 := { st3 with messages := st3.messages ++ [upMsg],
                                uploading := false }
          handleSendQuery F st4 conversationId userMsg u3 u4 now
            (ens.2 ++ up.2)
        | .error e =>
          ({ st3 with error := some ("Error al subir archivos: " ++ e),
                      uploading := false }, ens.2 ++ up.2)
      else handleSendQuery F st2 conversationId userMsg u3 u4 now ens.2

/-- An observable effect of the delete handler: a backend request or the
    local-store removal. -/
inductive UiEffect
  | apiRequest (r : Request)
  | localDeleteConversation (conversationId : String)
deriving DecidableEq, Repr

/-- `handleDeleteConversation` of `App`: after the confirmation dialog,
    the backend DELETE is awaited first and the local deletion follows
    only on success. -/
def handleDeleteConversation (F : Fetch) (confirmed : Bool) (st : AppState)
    (conversationId : String) : AppState × List UiEffect :=
  if !confirmed then (st, [])
  else
    let res := Api.deleteConversation F conversationId
    let eff := res.2.map UiEffect.apiRequest
    match res.1 with
    | .ok _ =>
      let st1 := { st with store :=
                    Store.deleteConversation st.store conversationId }
      let st2 := if st.conversationId = some conversationId
                 then { st1 with conversationId := none, messages := [] }
                 else st1
      (st2, eff ++ [UiEffect.localDeleteConversation conversationId])
    | .error e =>
      ({ st with error := some ("Error al eliminar el chat: " ++ e) }, eff)

/-! Authentication gating and logout. -/

/-- The authenticated user object. -/
structure User where
  username : String
deriving DecidableEq, Repr

/-- What `App` renders. -/
inductive Screen
  | loadingScreen | authPage | chatUi
deriving DecidableEq, Repr

/-- The auth-context values `App` branches on. -/
structure AuthView where
  authLoading : Bool
  user : Option User
deriving DecidableEq, Repr

/-- The top-level render branch of `App`: the loading screen while auth
    is loading, the auth page without a user, the chat UI otherwise. -/
def renderApp (v : AuthView) : Screen :=
  if v.authLoading then .loadingScreen
  else match v.user with
       | none => .authPage
       | some _ => .chatUi

/-- The auth-context state `logout` mutates. -/
structure AuthCtxState where
  user : Option User
  token : Option String
deriving DecidableEq, Repr

/-- The browser localStorage as a key-value list. -/
structure WebStorage where
  entries : List (String × String)
deriving DecidableEq, Repr

/-- `localStorage.removeItem`. -/
def removeItem (s : WebStorage) (k : String) : WebStorage :=
  { entries := s.entries.filter (fun kv => !(kv.1 == k)) }

/-- `localStorage.getItem` (`none` for a missing key). -/
def getItem (s : WebStorage) (k : String) : Option String :=
  (s.entries.find? (fun kv => kv.1 == k)).map (fun kv => kv.2)

/-- `logout` of the auth context: remove the three cached entries and
    clear the token and user. -/
def logout (ctx : AuthCtxState) (storage : WebStorage) :
    AuthCtxState × WebStorage :=
  ({ user := none, token := none },
   removeItem (removeItem (removeItem storage "auth_token")
     "chat.conversations") "chat.messages")

/-! Backend state, modelled from the spec where the Python sources are
    not part of the repository snapshot. -/

/-- A vector stored in the vector database, keyed by document name and
    user. -/
structure VecPoint where
  document_name : String
  user_id : String
deriving DecidableEq, Repr

/-- Document metadata stored in the document database. -/
structure DocMeta where
  id : String
  filename : String
  user_id : String
deriving DecidableEq, Repr

/-- A chunk row of the document database. -/
structure ChunkRow where
  document_id : String
deriving DecidableEq, Repr

/-- A session row of the document database. -/
structure SessionRow where
  session_id : String
  user_id : String
  title : Option String
  document_ids : List String
deriving DecidableEq, Repr

/-- The two persistence stores of the backend. -/
structure BackendState where
  vectors : List VecPoint
  documents : List DocMeta
  chunks : List ChunkRow
  sessions : List SessionRow
deriving DecidableEq, Repr

/-- Modelled from the spec: `DELETE /api/document/{document_id}`
    (backend/app/routers/documents.py, absent from the snapshot)
    validates that the document exists, removes its vectors from the
    vector store (filtered by document name and user id) and its
    metadata and chunks from the document database. -/
def backendDeleteDocument (st : BackendState) (documentId : String) :
    Option BackendState :=
  match st.documents.find? (fun d => d.id == documentId) with
  | none => none
  | some doc =>
    some { st with
      vectors := st.vectors.filter (fun v =>
        !(v.document_name == doc.filename && v.user_id == doc.user_id)),
      documents := st.documents.filter (fun d => !(d.id == documentId)),
      chunks := st.chunks.filter (fun c => !(c.document_id == documentId)) }

/-- Modelled from the spec: `POST /api/upload`
    (backend/app/routers/documents.py, absent from the snapshot) saves
    the document metadata and, when a `session_id` is provided, appends
    the new document id to that session's `document_ids`. -/
def backendUpload (st : BackendState) (filename userId : String)
    (sessionId : Option String) (newDocId : String) : BackendState :=
  let st1 := { st with documents := st.documents ++
      [{ id := newDocId, filename := filename, user_id := userId }] }
  match sessionId with
  | none => st1
  | some sid =>
    { st1 with sessions := st1.sessions.map (fun s =>
        if s.session_id == sid then
          { s with document_ids := s.document_ids ++ [newDocId] }
        else s) }

/-- Modelled from the spec: the session and message endpoints the
    backend exposes (backend/app/routers/sessions.py, absent from the
    snapshot), from the repository's API reference documentation. -/
def backendSessionRoutes (sessionId uid : String) : List (Method × String) :=
  [(.POST, "/api/session/create"),
   (.GET, "/api/sessions/" ++ uid),
   (.GET, "/api/session/" ++ sessionId ++ "/messages"),
   (.PATCH, "/api/session/" ++ sessionId ++ "/title"),
   (.DELETE, "/api/session/" ++ sessionId),
   (.GET, "/api/session/" ++ sessionId ++ "/documents")]

/-- Modelled from the spec: the document endpoints the backend exposes
    (backend/app/routers/documents.py, absent from the snapshot). -/
def backendDocumentRoutes (documentId uid : String) : List (Method × String) :=
  [(.POST, "/api/upload"),
   (.GET, "/api/documents/" ++ uid),
   (.DELETE, "/api/document/" ++ documentId),
   (.DELETE, "/api/documents/" ++ uid)]

/-! Concrete environments used by witnesses and counterexamples. -/

/-- A response with every field populated and `ok` set. -/
def respOkSample : Resp :=
  { ok := true, status := 200, answer := "ans", language := "es",
    sources := [], session_id := "sess-1", sessions := [], messages := [] }

/-- A failing response. -/
def respFailSample : Resp :=
  { ok := false, status := 500, answer := "", language := "", sources := [],
    session_id := "", sessions := [], messages := [] }

/-- An environment answering every request successfully. -/
def envOk : Fetch := fun _ => respOkSample

/-- An environment failing every request. -/
def envFail : Fetch := fun _ => respFailSample

/-- An environment failing exactly the upload requests. -/
def envUploadFail : Fetch := fun r =>
  if r.path = "/api/upload" then respFailSample else respOkSample

/-- Whether a client call threw (rejected) rather than resolving. -/
def exErr {α : Type} : Except String α → Bool
  | .error _ => true
  | .ok _ => false

/-- A sample local store with two conversations. -/
def lsSample : LocalStore :=
  { conversations := [{ id := "c1", title := "t1", createdAt := 0 },
                      { id := "c2", title := "t2", createdAt := 1 }],
    messagesByConv :=
      [("c1", [{ id := "m1", role := "user", content := "hi", createdAt := 0 }]),
       ("c2", [])] }

/-- A sample app state pointing at the first sample conversation. -/
def stSample : AppState :=
  { conversationId := some "c1", messages := [], sending := false,
    uploading := false, error := none,
    files := [{ name := "a.txt", size := 3 }], store := lsSample }

/-- A sample backend state with two documents. -/
def beSample : BackendState :=
  { vectors := [{ document_name := "a.pdf", user_id := "u1" },
                { document_name := "b.pdf", user_id := "u1" }],
    documents := [{ id := "d1", filename := "a.pdf", user_id := "u1" },
                  { id := "d2", filename := "b.pdf", user_id := "u1" }],
    chunks := [{ document_id := "d1" }, { document_id := "d2" }],
    sessions := [{ session_id := "s1", user_id := "u1", title := none,
                   document_ids := [] }] }

/-! Shared lemmas about the client API calls. -/

theorem sessionsPathNe (conversationId : String) :
    ("/api/session/" ++ conversationId ++ "/messages") ≠
      "/api/sessions/default_user" := by
  intro h
  have hp : "/api/session/".data <+:
      ("/api/session/" ++ conversationId ++ "/messages").data := by
    simp only [String.data_append]
    exact ⟨conversationId.data ++ "/messages".data, by simp⟩
  rw [h] at hp
  exact absurd hp (by decide)

theorem listConversations_trace (F : Fetch) :
    (Api.listConversations F).2 = [sessionsListReq] := by
  simp only [Api.listConversations]
  split <;> rfl

theorem getMessages_trace (F : Fetch) (conversationId : String) :
    (Api.getMessages F conversationId).2 = [sessionMessagesReq conversationId] := by
  simp only [Api.getMessages]
  split <;> rfl

theorem newConversation_trace (F : Fetch) :
    (Api.newConversation F).2 = [sessionCreateReq] := by
  simp only [Api.newConversation]
  split <;> rfl

theorem deleteConversation_trace (F : Fetch) (conversationId : String) :
    (Api.deleteConversation F conversationId).2 = [sessionDeleteReq conversationId] := by
  simp only [Api.deleteConversation]
  split <;> rfl

theorem renameConversation_trace (F : Fetch) (conversationId newTitle : String) :
    (Api.renameConversation F conversationId newTitle).2 =
      [sessionTitleReq conversationId newTitle] := by
  simp only [Api.renameConversation]
  split <;> rfl

theorem getSessionDocuments_trace (F : Fetch) (conversationId : String) :
    (Api.getSessionDocuments F conversationId).2 =
      [sessionDocumentsReq conversationId] := by
  simp only [Api.getSessionDocuments]
  split <;> rfl

theorem listDocuments_trace (F : Fetch) :
    (Api.listDocuments F).2 = [documentsListReq] := by
  simp only [Api.listDocuments]
  split <;> rfl

theorem deleteDocument_trace (F : Fetch) (documentId : String) :
    (Api.deleteDocument F documentId).2 = [documentDeleteReq documentId] := by
  simp only [Api.deleteDocument]
  split <;> rfl

theorem sendUploads_err (F : Fetch) (sessionId : String) (files : List String) :
    exErr (Api.sendUploads F sessionId files).1 =
      (Api.sendUploads F sessionId files).2.any (fun r => !(F r).ok) := by
  induction files with
  | nil => rfl
  | cons f fs ih =>
    simp only [Api.sendUploads]
    by_cases h : (F (uploadSendReq sessionId f)).ok
    · simp [h, ih]
    · simp [h, exErr]

theorem exErr_map {α β : Type} (g : α → β) (e : Except String α) :
    exErr (e.map g) = exErr e := by
  cases e <;> rfl

theorem uploadFiles_err (F : Fetch) (sessionId : Option String)
    (jfiles : List JFile) :
    exErr (Api.uploadFiles F sessionId jfiles).1 =
      (Api.uploadFiles F sessionId jfiles).2.any (fun r => !(F r).ok) := by
  induction jfiles with
  | nil => rfl
  | cons f fs ih =>
    simp only [Api.uploadFiles]
    by_cases h : (F (uploadFilesReq sessionId f)).ok
    · simp [h, exErr_map, ih]
    · simp [h, exErr]

theorem send_err (F : Fetch) (cid : Option String) (message freshUuid : String)
    (files : List String) :
    exErr (Api.send F cid message files freshUuid).1 =
      (Api.send F cid message files freshUuid).2.any (fun r => !(F r).ok) := by
  simp only [Api.send]
  rcases hup : (if files.length > 0 then
      Api.sendUploads F (Api.sendSessionId cid freshUuid) files
    else (Except.ok (), ([] : List Request))) with ⟨upres, uptr⟩
  have hany : exErr upres = uptr.any (fun r => !(F r).ok) := by
    by_cases hf : files.length > 0
    · rw [if_pos hf] at hup
      have := sendUploads_err F (Api.sendSessionId cid freshUuid) files
      rw [hup] at this
      exact this
    · rw [if_neg hf] at hup
      cases hup
      rfl
  cases upres with
  | error e => simpa [exErr] using hany.symm
  | ok v =>
    by_cases hq : (F (queryReq message (Api.sendSessionId cid freshUuid))).ok
    · simp only [exErr] at hany
      simp [hq, exErr, List.any_append, ← hany]
    · simp only [exErr] at hany
      simp [hq, exErr, List.any_append, ← hany]

/-- C10: each non-mock client operation rejects exactly when one of the
    HTTP responses it received was not ok — for the single-request
    operations the rejection flag equals the negated `ok` flag of the
    response, and for `send` and `uploadFiles` it equals "some issued
    request got a non-ok response"; an ok response never causes a
    rejection on status. -/
theorem claim_C10 (F : Fetch) (cid sessionId : Option String)
    (conversationId newTitle documentId message freshUuid : String)
    (files : List String) (jfiles : List JFile) :
    (exErr (Api.send F cid message files freshUuid).1 =
      (Api.send F cid message files freshUuid).2.any (fun r => !(F r).ok)) ∧
    (exErr (Api.listConversations F).1 = !(F sessionsListReq).ok) ∧
    (exErr (Api.getMessages F conversationId).1 =
      !(F (sessionMessagesReq conversationId)).ok) ∧
    (exErr (Api.newConversation F).1 = !(F sessionCreateReq).ok) ∧
    (exErr (Api.uploadFiles F sessionId jfiles).1 =
      (Api.uploadFiles F sessionId jfiles).2.any (fun r => !(F r).ok)) ∧
    (exErr (Api.deleteConversation F conversationId).1 =
      !(F (sessionDeleteReq conversationId)).ok) ∧
    (exErr (Api.renameConversation F conversationId newTitle).1 =
      !(F (sessionTitleReq conversationId newTitle)).ok) ∧
    (exErr (Api.getSessionDocuments F conversationId).1 =
      !(F (sessionDocumentsReq conversationId)).ok) ∧
    (exErr (Api.listDocuments F).1 = !(F documentsListReq).ok) ∧
    (exErr (Api.deleteDocument F documentId).1 =
      !(F (documentDeleteReq documentId)).ok) := by
  refine ⟨send_err F cid message freshUuid files, ?_, ?_, ?_,
    uploadFiles_err F sessionId jfiles, ?_, ?_, ?_, ?_, ?_⟩ <;>
    · first
      | (simp only [Api.listConversations, Api.getMessages,
          Api.newConversation, Api.deleteConversation,
          Api.renameConversation, Api.getSessionDocuments,
          Api.listDocuments, Api.deleteDocument]
         split <;> simp_all [exErr])

/-- C4: the backend exposes CRUD endpoints for sessions, messages and
    documents, and the client maps each session operation to its
    documented endpoint — create to POST /api/session/create, list to
    GET /api/sessions/default_user, message read to
    GET /api/session/id/messages, rename to PATCH /api/session/id/title,
    delete to DELETE /api/session/id — and no two of these operations
    share a method-and-path pair. -/
theorem claim_C4 (F : Fetch) (conversationId newTitle : String) :
    ((Api.newConversation F).2 = [sessionCreateReq] ∧
      sessionCreateReq.method = Method.POST ∧
      sessionCreateReq.path = "/api/session/create") ∧
    ((Api.listConversations F).2 = [sessionsListReq] ∧
      sessionsListReq.method = Method.GET ∧
      sessionsListReq.path = "/api/sessions/default_user") ∧
    ((Api.getMessages F conversationId).2 = [sessionMessagesReq conversationId] ∧
      (sessionMessagesReq conversationId).method = Method.GET ∧
      (sessionMessagesReq conversationId).path =
        "/api/session/" ++ conversationId ++ "/messages") ∧
    ((Api.renameConversation F conversationId newTitle).2 =
        [sessionTitleReq conversationId newTitle] ∧
      (sessionTitleReq conversationId newTitle).method = Method.PATCH ∧
      (sessionTitleReq conversationId newTitle).path =
        "/api/session/" ++ conversationId ++ "/title") ∧
    ((Api.deleteConversation F conversationId).2 =
        [sessionDeleteReq conversationId] ∧
      (sessionDeleteReq conversationId).method = Method.DELETE ∧
      (sessionDeleteReq conversationId).path =
        "/api/session/" ++ conversationId) ∧
    ((sessionCreateReq.method, sessionCreateReq.path) ∈
        backendSessionRoutes conversationId "default_user" ∧
      (sessionsListReq.method, sessionsListReq.path) ∈
        backendSessionRoutes conversationId "default_user" ∧
      ((sessionMessagesReq conversationId).method,
        (sessionMessagesReq conversationId).path) ∈
        backendSessionRoutes conversationId "default_user" ∧
      ((sessionTitleReq conversationId newTitle).method,
        (sessionTitleReq conversationId newTitle).path) ∈
        backendSessionRoutes conversationId "default_user" ∧
      ((sessionDeleteReq conversationId).method,
        (sessionDeleteReq conversationId).path) ∈
        backendSessionRoutes conversationId "default_user" ∧
      (Method.POST, "/api/upload") ∈
        backendDocumentRoutes conversationId "default_user" ∧
      (Method.DELETE, "/api/document/" ++ conversationId) ∈
        backendDocumentRoutes conversationId "default_user") ∧
    List.Pairwise (fun a b => a ≠ b)
      [(sessionCreateReq.method, sessionCreateReq.path),
       (sessionsListReq.method, sessionsListReq.path),
       ((sessionMessagesReq conversationId).method,
         (sessionMessagesReq conversationId).path),
       ((sessionTitleReq conversationId newTitle).method,
         (sessionTitleReq conversationId newTitle).path),
       ((sessionDeleteReq conversationId).method,
         (sessionDeleteReq conversationId).path)] := by
  refine ⟨⟨newConversation_trace F, rfl, rfl⟩,
    ⟨listConversations_trace F, rfl, rfl⟩,
    ⟨getMessages_trace F conversationId, rfl, rfl⟩,
    ⟨renameConversation_trace F conversationId newTitle, rfl, rfl⟩,
    ⟨deleteConversation_trace F conversationId, rfl, rfl⟩,
    ⟨?_, ?_, ?_, ?_, ?_, ?_, ?_⟩, ?_⟩
  · simp [backendSessionRoutes, sessionCreateReq]
  · simp [backendSessionRoutes, sessionsListReq]
  · simp [backendSessionRoutes, sessionMessagesReq]
  · simp [backendSessionRoutes, sessionTitleReq]
  · simp [backendSessionRoutes, sessionDeleteReq]
  · simp [backendDocumentRoutes]
  · simp [backendDocumentRoutes]
  · have hne := sessionsPathNe conversationId
    refine List.Pairwise.cons ?_ (List.Pairwise.cons ?_ (List.Pairwise.cons ?_
      (List.Pairwise.cons ?_ (List.pairwise_singleton _ _))))
    · intro p hp
      simp only [List.mem_cons, List.not_mem_nil, or_false] at hp
      rcases hp with rfl | rfl | rfl | rfl <;>
        · intro hh
          have h2 := congrArg Prod.fst hh
          simp [sessionCreateReq, sessionsListReq, sessionMessagesReq,
            sessionTitleReq, sessionDeleteReq] at h2
    · intro p hp
      simp only [List.mem_cons, List.not_mem_nil, or_false] at hp
      rcases hp with rfl | rfl | rfl
      · exact fun hh => hne ((congrArg Prod.snd hh).symm)
      all_goals
        intro hh
        have h2 := congrArg Prod.fst hh
        simp [sessionsListReq, sessionTitleReq, sessionDeleteReq] at h2
    · intro p hp
      simp only [List.mem_cons, List.not_mem_nil, or_false] at hp
      rcases hp with rfl | rfl <;>
        · intro hh
          have h2 := congrArg Prod.fst hh
          simp [sessionMessagesReq, sessionTitleReq, sessionDeleteReq] at h2
    · intro p hp
      simp only [List.mem_singleton] at hp
      subst hp
      intro hh
      have h2 := congrArg Prod.fst hh
      simp [sessionTitleReq, sessionDeleteReq] at h2

/-- C2: deleting a document removes its vectors from the vector store
    and its metadata and chunks from the document store (the backend is
    modelled from the spec), and the client's `deleteDocument` issues
    exactly one DELETE /api/document/{document_id} request and throws
    exactly when the response is not ok. -/
theorem claim_C2 (F : Fetch) (st : BackendState) (documentId : String)
    (doc : DocMeta)
    (hfind : st.documents.find? (fun d => d.id == documentId) = some doc) :
    (∃ st2, backendDeleteDocument st documentId = some st2 ∧
      (∀ v ∈ st2.vectors,
        ¬(v.document_name = doc.filename ∧ v.user_id = doc.user_id)) ∧
      (∀ d ∈ st2.documents, d.id ≠ documentId) ∧
      (∀ c ∈ st2.chunks, c.document_id ≠ documentId)) ∧
    (Api.deleteDocument F documentId).2 = [documentDeleteReq documentId] ∧
    exErr (Api.deleteDocument F documentId).1 =
      !(F (documentDeleteReq documentId)).ok := by
  refine ⟨?_, deleteDocument_trace F documentId, ?_⟩
  · simp only [backendDeleteDocument, hfind]
    refine ⟨_, rfl, ?_, ?_, ?_⟩
    · intro v hv
      have h2 := (List.mem_filter.mp hv).2
      simp only [Bool.not_eq_true', Bool.and_eq_false_iff, beq_eq_false_iff_ne,
        ne_eq] at h2
      rintro ⟨h3, h4⟩
      rcases h2 with h2 | h2 <;> exact h2 (by assumption)
    · intro d hd
      have h2 := (List.mem_filter.mp hd).2
      simpa using h2
    · intro c hc
      have h2 := (List.mem_filter.mp hc).2
      simpa using h2
  · simp only [Api.deleteDocument]
    split <;> simp_all [exErr]

/-- Witness for C2 at the sample backend state. -/
theorem claim_C2_witness :
    (beSample.documents.find? (fun d => d.id == "d1") =
      some { id := "d1", filename := "a.pdf", user_id := "u1" }) ∧
    (∃ st2, backendDeleteDocument beSample "d1" = some st2 ∧
      (∀ v ∈ st2.vectors, ¬(v.document_name = "a.pdf" ∧ v.user_id = "u1")) ∧
      (∀ d ∈ st2.documents, d.id ≠ "d1") ∧
      (∀ c ∈ st2.chunks, c.document_id ≠ "d1")) :=
  ⟨by decide,
   (claim_C2 envOk beSample "d1" { id := "d1", filename := "a.pdf", user_id := "u1" }
     (by decide)).1⟩

theorem sendUploads_all_ok (F : Fetch) (sessionId : String)
    (files : List String)
    (hup : ∀ g ∈ files, (F (uploadSendReq sessionId g)).ok = true) :
    Api.sendUploads F sessionId files =
      (Except.ok (), files.map (uploadSendReq sessionId)) := by
  induction files with
  | nil => rfl
  | cons f fs ih =>
    have hf := hup f (by simp)
    have hrest := ih (fun g hg => hup g (by simp [hg]))
    simp [Api.sendUploads, hf, hrest]

theorem send_trace_all_ok (F : Fetch) (conversationId : Option String)
    (message freshUuid : String) (files : List String)
    (hup : ∀ g ∈ files,
      (F (uploadSendReq (Api.sendSessionId conversationId freshUuid) g)).ok
        = true) :
    (Api.send F conversationId message files freshUuid).2 =
      files.map (uploadSendReq (Api.sendSessionId conversationId freshUuid)) ++
        [queryReq message (Api.sendSessionId conversationId freshUuid)] := by
  simp only [Api.send]
  by_cases hf : files.length > 0
  · rw [if_pos hf, sendUploads_all_ok F _ files hup]
    split
    · simp_all
    · split <;> rfl
  · have h0 : files = [] := by
      cases files with
      | nil => rfl
      | cons a b => exact absurd (by simp) hf
    subst h0
    simp only [if_neg hf]
    split <;> rfl

/-- C3 as frozen fails at the empty string: `some ""` is a non-null
    `sessionId` argument, yet `uploadFiles` omits the `session_id` form
    field because the empty string is falsy in JS. -/
theorem claim_C3_counterexample :
    (some "" : Option String) ≠ none ∧
    ((Api.uploadFiles envOk (some "") [{ name := "a.txt", size := 3 }]).2.map
      (fun r => r.form.any (fun kv => kv.1 == "session_id"))) = [false] :=
  ⟨by simp, rfl⟩

/-- C3 (amended): for every send with a file list whose uploads succeed,
    each file is uploaded via POST /api/upload with form fields `file`,
    `user_id` and `session_id` bound to the session used for the
    message, so the document id is mirrored into that session's
    `document_ids` (backend modelled from the spec); and `uploadFiles`
    includes `session_id` exactly when a non-null, non-empty `sessionId`
    argument is given. -/
theorem claim_C3_amended (F : Fetch) (conversationId : Option String)
    (message freshUuid sid filename userId newDocId : String)
    (files : List String) (sessionId : Option String) (f : JFile)
    (st : BackendState) (srow : SessionRow)
    (hup : ∀ g ∈ files,
      (F (uploadSendReq (Api.sendSessionId conversationId freshUuid) g)).ok
        = true) :
    (files ≠ [] →
      (Api.send F conversationId message files freshUuid).2 =
        files.map (uploadSendReq (Api.sendSessionId conversationId freshUuid))
          ++ [queryReq message (Api.sendSessionId conversationId freshUuid)]) ∧
    (∀ g, (uploadSendReq (Api.sendSessionId conversationId freshUuid) g).method
        = Method.POST ∧
      (uploadSendReq (Api.sendSessionId conversationId freshUuid) g).path
        = "/api/upload" ∧
      (uploadSendReq (Api.sendSessionId conversationId freshUuid) g).form =
        [("file", JVal.file g), ("user_id", JVal.str "default_user"),
         ("session_id",
           JVal.str (Api.sendSessionId conversationId freshUuid))]) ∧
    ((uploadFilesReq sessionId f).form.any
        (fun kv => kv.1 == "session_id") = true ↔
      ∃ s, sessionId = some s ∧ s ≠ "") ∧
    (srow ∈ st.sessions → srow.session_id = sid →
      ∃ srow2 ∈ (backendUpload st filename userId (some sid) newDocId).sessions,
        srow2.session_id = sid ∧ newDocId ∈ srow2.document_ids) := by
  refine ⟨fun _ => send_trace_all_ok F conversationId message freshUuid files hup,
    fun g => ⟨rfl, rfl, rfl⟩, ?_, ?_⟩
  · cases sessionId with
    | none => simp [uploadFilesReq]
    | some s =>
      by_cases hs : s = ""
      · subst hs
        simp [uploadFilesReq]
      · simp [uploadFilesReq, hs]
  · intro hsrow hsid
    refine ⟨{ srow with document_ids := srow.document_ids ++ [newDocId] },
      ?_, by simp [hsid], by simp⟩
    simp only [backendUpload]
    have h2 := List.mem_map_of_mem
      (fun s => if s.session_id == sid then
        { s with document_ids := s.document_ids ++ [newDocId] } else s) hsrow
    simpa [hsid] using h2

/-- Witness for the amended C3 at concrete inputs. -/
theorem claim_C3_amended_witness :
    (∀ g ∈ ["f1"],
      (envOk (uploadSendReq (Api.sendSessionId (some "c1") "u") g)).ok = true) ∧
    ((uploadFilesReq (some "x") { name := "a.txt", size := 3 }).form.any
        (fun kv => kv.1 == "session_id") = true ↔
      ∃ s, (some "x" : Option String) = some s ∧ s ≠ "") :=
  ⟨fun g _ => rfl,
   (claim_C3_amended envOk (some "c1") "m" "u" "s1" "a.pdf" "u1" "d9" ["f1"]
     (some "x") { name := "a.txt", size := 3 } beSample
     { session_id := "s1", user_id := "u1", title := none, document_ids := [] }
     (fun g _ => rfl)).2.2.1⟩

/-- C7 as frozen fails twice: with `conversationId` the empty string
    (a provided id) the returned id is the fresh UUID instead, and when
    an upload fails no POST /api/query is issued at all. -/
theorem claim_C7_counterexample :
    ((some "" : Option String) ≠ none ∧
      (Api.send envOk (some "") "hi" [] "u-1").1 =
        Except.ok { reply := "ans", conversationId := "u-1",
                    language := "es", sources := [] } ∧
      ("u-1" : String) ≠ "") ∧
    ((Api.send envUploadFail (some "c") "m" ["f"] "u").2.countP
      (fun r => r.path == "/api/query") = 0) :=
  ⟨⟨by simp, rfl, by simp⟩, rfl⟩

/-- C7 (amended): for every `api.send` whose uploads (if any) all
    succeed, exactly one POST /api/query is issued, carrying the message
    as prompt, the session id, user_id "default_user" and top_k 10; the
    reply equals the response's answer field, and the returned
    conversationId equals the given one when it is non-empty and a
    freshly generated UUID otherwise (including when the empty string is
    passed). -/
theorem claim_C7_amended (F : Fetch) (conversationId : Option String)
    (message freshUuid : String) (files : List String)
    (hup : ∀ g ∈ files,
      (F (uploadSendReq (Api.sendSessionId conversationId freshUuid) g)).ok
        = true) :
    ((Api.send F conversationId message files freshUuid).2.countP
        (fun r => r.path == "/api/query") = 1) ∧
    (queryReq message (Api.sendSessionId conversationId freshUuid) ∈
      (Api.send F conversationId message files freshUuid).2) ∧
    ((queryReq message (Api.sendSessionId conversationId freshUuid)).method
        = Method.POST ∧
      (queryReq message (Api.sendSessionId conversationId freshUuid)).body =
        [("prompt", JVal.str message),
         ("session_id", JVal.str (Api.sendSessionId conversationId freshUuid)),
         ("user_id", JVal.str "default_user"), ("top_k", JVal.nat 10)]) ∧
    ((F (queryReq message (Api.sendSessionId conversationId freshUuid))).ok
        = true →
      (Api.send F conversationId message files freshUuid).1 =
        Except.ok
          { reply :=
              (F (queryReq message
                (Api.sendSessionId conversationId freshUuid))).answer,
            conversationId := Api.sendSessionId conversationId freshUuid,
            language :=
              (F (queryReq message
                (Api.sendSessionId conversationId freshUuid))).language,
            sources :=
              (F (queryReq message
                (Api.sendSessionId conversationId freshUuid))).sources }) ∧
    (∀ c, conversationId = some c → c ≠ "" →
      Api.sendSessionId conversationId freshUuid = c) ∧
    ((conversationId = none ∨ conversationId = some "") →
      Api.sendSessionId conversationId freshUuid = freshUuid) := by
  have htr := send_trace_all_ok F conversationId message freshUuid files hup
  refine ⟨?_, ?_, ⟨rfl, rfl⟩, ?_, ?_, ?_⟩
  · rw [htr, List.countP_append]
    have h0 : (files.map
        (uploadSendReq (Api.sendSessionId conversationId freshUuid))).countP
        (fun r => r.path == "/api/query") = 0 := by
      rw [List.countP_eq_zero]
      intro r hr
      rcases List.mem_map.mp hr with ⟨g, _, rfl⟩
      simp [uploadSendReq]
    rw [h0]
    rfl
  · rw [htr]
    simp
  · intro hq
    simp only [Api.send]
    by_cases hf : files.length > 0
    · rw [if_pos hf, sendUploads_all_ok F _ files hup]
      simp [hq]
    · simp [if_neg hf, hq]
  · intro c hc hne
    simp [Api.sendSessionId, hc, hne]
  · rintro (hc | hc) <;> simp [Api.sendSessionId, hc]

/-- Witness for the amended C7 at concrete inputs. -/
theorem claim_C7_amended_witness :
    (∀ g ∈ ["f"],
      (envOk (uploadSendReq (Api.sendSessionId (some "c") "u") g)).ok = true) ∧
    (Api.send envOk (some "c") "m" ["f"] "u").2.countP
      (fun r => r.path == "/api/query") = 1 :=
  ⟨fun g _ => rfl,
   (claim_C7_amended envOk (some "c") "m" "u" ["f"] (fun g _ => rfl)).1⟩

/-- C6 as frozen fails in the auth-loading state: no user is set, yet
    the rendered screen is the loading screen, not the auth page. -/
theorem claim_C6_counterexample :
    ({ authLoading := true, user := none } : AuthView).user = none ∧
    renderApp { authLoading := true, user := none } ≠ Screen.authPage :=
  ⟨rfl, by decide⟩

/-- C6 (amended): the chat UI is rendered only when a user object is
    set; when auth has finished loading and no user is set the auth page
    is rendered instead; and logout clears the user, the token, and the
    cached auth_token, chat.conversations and chat.messages localStorage
    entries. -/
theorem claim_C6_amended (v : AuthView) (ctx : AuthCtxState)
    (storage : WebStorage) :
    (renderApp v = Screen.chatUi → v.user ≠ none) ∧
    (v.authLoading = false → v.user = none → renderApp v = Screen.authPage) ∧
    (logout ctx storage).1.user = none ∧
    (logout ctx storage).1.token = none ∧
    getItem (logout ctx storage).2 "auth_token" = none ∧
    getItem (logout ctx storage).2 "chat.conversations" = none ∧
    getItem (logout ctx storage).2 "chat.messages" = none := by
  refine ⟨?_, ?_, rfl, rfl, ?_, ?_, ?_⟩
  · intro hr
    cases hb : v.authLoading with
    | true => rw [renderApp, if_pos (by rw [hb])] at hr; cases hr
    | false =>
      cases hu : v.user with
      | none => rw [renderApp, if_neg (by rw [hb]; simp), hu] at hr; cases hr
      | some u => simp [hu]
  · intro hb hu
    rw [renderApp, if_neg (by rw [hb]; simp), hu]
  all_goals
    simp only [logout, getItem, removeItem]
    rw [Option.map_eq_none', List.find?_eq_none]
    intro kv hkv
    simp only [List.mem_filter] at hkv
    simp_all

/-- Witness for the amended C6. -/
theorem claim_C6_amended_witness :
    ({ authLoading := false, user := none } : AuthView).authLoading = false ∧
    renderApp { authLoading := false, user := none } = Screen.authPage :=
  ⟨rfl,
   (claim_C6_amended { authLoading := false, user := none }
     { user := none, token := none } { entries := [] }).2.1 rfl rfl⟩

theorem find?_filter_of_imp {α : Type} (l : List α) (p q : α → Bool)
    (hpq : ∀ x, p x = true → q x = true) :
    (l.filter q).find? p = l.find? p := by
  induction l with
  | nil => rfl
  | cons x t ih =>
    by_cases hx : p x
    · rw [List.filter_cons, if_pos (hpq x hx), List.find?_cons_of_pos _ hx,
        List.find?_cons_of_pos _ hx]
    · by_cases hq : q x
      · rw [List.filter_cons, if_pos hq, List.find?_cons_of_neg _ hx,
          List.find?_cons_of_neg _ hx, ih]
      · rw [List.filter_cons, if_neg hq, List.find?_cons_of_neg _ hx, ih]

/-- C1: deleting a session cascades in the client store — the
    conversation entry and the id's entry in the messages map are both
    removed while every other conversation and message list is kept —
    and the UI delete handler issues the backend DELETE first, removing
    the conversation from the local store only after it succeeds. -/
theorem claim_C1 (F : Fetch) (st : AppState) (ls : LocalStore)
    (conversationId : String)
    (hmem : conversationId ∈ ls.conversations.map Conv.id) :
    (¬ ∃ c ∈ (Store.deleteConversation ls conversationId).conversations,
        c.id = conversationId) ∧
    objGet (Store.deleteConversation ls conversationId).messagesByConv
      conversationId = none ∧
    (∀ c, c.id ≠ conversationId →
      (c ∈ (Store.deleteConversation ls conversationId).conversations ↔
        c ∈ ls.conversations)) ∧
    (∀ k, k ≠ conversationId →
      objGet (Store.deleteConversation ls conversationId).messagesByConv k =
        objGet ls.messagesByConv k) ∧
    ((F (sessionDeleteReq conversationId)).ok = true →
      (handleDeleteConversation F true st conversationId).2 =
        [UiEffect.apiRequest (sessionDeleteReq conversationId),
         UiEffect.localDeleteConversation conversationId] ∧
      (handleDeleteConversation F true st conversationId).1.store =
        Store.deleteConversation st.store conversationId) ∧
    ((F (sessionDeleteReq conversationId)).ok = false →
      UiEffect.localDeleteConversation conversationId ∉
        (handleDeleteConversation F true st conversationId).2 ∧
      (handleDeleteConversation F true st conversationId).1.store =
        st.store) := by
  refine ⟨?_, ?_, ?_, ?_, ?_, ?_⟩
  · rintro ⟨c, hc, hid⟩
    have h2 := (List.mem_filter.mp hc).2
    simp [hid] at h2
  · simp only [Store.deleteConversation, objGet, objRemove]
    rw [Option.map_eq_none', List.find?_eq_none]
    intro kv hkv
    have h2 := (List.mem_filter.mp hkv).2
    simpa using h2
  · intro c hc
    simp only [Store.deleteConversation]
    rw [List.mem_filter]
    simp [hc]
  · intro k hk
    simp only [Store.deleteConversation, objGet, objRemove]
    rw [find?_filter_of_imp]
    intro kv hkv
    simp only [beq_iff_eq] at hkv
    simp [hkv, hk]
  · intro hok
    simp only [handleDeleteConversation, Api.deleteConversation, hok,
      if_true, Bool.not_true, Bool.false_eq_true, if_false]
    refine ⟨rfl, ?_⟩
    split <;> rfl
  · intro hbad
    simp [handleDeleteConversation, Api.deleteConversation, hbad]

/-- Witness for C1 at the sample store and state. -/
theorem claim_C1_witness :
    ("c1" ∈ lsSample.conversations.map Conv.id) ∧
    objGet (Store.deleteConversation lsSample "c1").messagesByConv "c1" =
      none ∧
    (handleDeleteConversation envOk true stSample "c1").2 =
      [UiEffect.apiRequest (sessionDeleteReq "c1"),
       UiEffect.localDeleteConversation "c1"] :=
  ⟨by decide,
   (claim_C1 envOk stSample lsSample "c1" (by decide)).2.1,
   ((claim_C1 envOk stSample lsSample "c1" (by decide)).2.2.2.2.1 rfl).1⟩

theorem ensure_trace_paths (F : Fetch) (st : AppState) (now : Nat) :
    ∀ r ∈ (ensureConversation F st now).2, r.path = "/api/session/create" := by
  intro r hr
  simp only [ensureConversation] at hr
  cases hst : st.conversationId with
  | some cid =>
    rw [hst] at hr
    simp at hr
  | none =>
    rw [hst] at hr
    cases hnc : (Api.newConversation F).1 with
    | ok nc =>
      rw [hnc, newConversation_trace] at hr
      simp only [List.mem_singleton] at hr
      subst hr
      rfl
    | error e =>
      rw [hnc, newConversation_trace] at hr
      simp only [List.mem_singleton] at hr
      subst hr
      rfl

theorem uploadFiles_paths (F : Fetch) (sessionId : Option String)
    (jfiles : List JFile) :
    ∀ r ∈ (Api.uploadFiles F sessionId jfiles).2, r.path = "/api/upload" := by
  induction jfiles with
  | nil => intro r hr; simp [Api.uploadFiles] at hr
  | cons f fs ih =>
    intro r hr
    simp only [Api.uploadFiles] at hr
    by_cases hok : (F (uploadFilesReq sessionId f)).ok
    · rw [if_pos hok] at hr
      rcases List.mem_cons.mp hr with rfl | hr2
      · rfl
      · exact ih r hr2
    · rw [if_neg hok] at hr
      simp only [List.mem_singleton] at hr
      subst hr
      rfl

theorem send_nofiles_trace (F : Fetch) (cid : Option String)
    (message freshUuid : String) :
    (Api.send F cid message [] freshUuid).2 =
      [queryReq message (Api.sendSessionId cid freshUuid)] := by
  simp only [Api.send, List.length_nil, gt_iff_lt, lt_self_iff_false,
    if_false]
  split <;> rfl

theorem ensure_ok_fields (F : Fetch) (st : AppState) (now : Nat)
    (cid : String) (st1 : AppState)
    (h : (ensureConversation F st now).1 = Except.ok (cid, st1)) :
    st1.messages = st.messages ∧ st1.files = st.files ∧
      st1.sending = st.sending ∧ st1.uploading = st.uploading := by
  simp only [ensureConversation] at h
  cases hc : st.conversationId with
  | some c =>
    rw [hc] at h
    cases h
    exact ⟨rfl, rfl, rfl, rfl⟩
  | none =>
    rw [hc] at h
    cases hnc : (Api.newConversation F).1 with
    | ok nc =>
      rw [hnc] at h
      cases h
      exact ⟨rfl, rfl, rfl, rfl⟩
    | error e =>
      rw [hnc] at h
      cases h

theorem handleSendQuery_trace (F : Fetch) (st : AppState)
    (conversationId : String) (userMsg : Msg) (u3 u4 : String) (now : Nat)
    (acc : List Request) :
    (handleSendQuery F st conversationId userMsg u3 u4 now acc).2 =
      acc ++ [queryReq userMsg.content
        (Api.sendSessionId (some conversationId) u4)] := by
  simp only [handleSendQuery]
  split <;> simp [send_nofiles_trace]

theorem handleSend_shape (F : Fetch) (st : AppState) (text : String)
    (u1 u2 u3 u4 : String) (now : Nat) :
    ∃ tr1 tr2 tr3,
      (handleSend F st text u1 u2 u3 u4 now).2 = tr1 ++ tr2 ++ tr3 ∧
      (∀ r ∈ tr1, r.path = "/api/session/create") ∧
      (∀ r ∈ tr2, r.path = "/api/upload") ∧
      (∀ r ∈ tr3, r.path = "/api/query") := by
  simp only [handleSend]
  by_cases hg : (jsTrim text == "" || !(!st.sending && !st.uploading) ||
      st.uploading) = true
  · rw [if_pos hg]
    exact ⟨[], [], [], rfl, by simp, by simp, by simp⟩
  · rw [if_neg hg]
    rcases hens : (ensureConversation F { st with error := none } now).1
      with e | ⟨cid, st1⟩
    · exact ⟨(ensureConversation F { st with error := none } now).2, [], [],
        by simp, ensure_trace_paths F _ now, by simp, by simp⟩
    · dsimp only
      by_cases hf : st1.files.length > 0
      · rw [if_pos hf]
        rcases hup : (Api.uploadFiles F (some cid) st1.files).1 with e2 | v
        · refine ⟨(ensureConversation F { st with error := none } now).2,
            (Api.uploadFiles F (some cid) st1.files).2, [], by simp,
            ensure_trace_paths F _ now, uploadFiles_paths F _ _, by simp⟩
        · refine ⟨(ensureConversation F { st with error := none } now).2,
            (Api.uploadFiles F (some cid) st1.files).2, _,
            handleSendQuery_trace F _ cid _ u3 u4 now _,
            ensure_trace_paths F _ now, uploadFiles_paths F _ _, ?_⟩
          intro r hr
          simp only [List.mem_singleton] at hr
          subst hr
          rfl
      · rw [if_neg hf]
        refine ⟨(ensureConversation F { st with error := none } now).2, [], _,
          by simpa using handleSendQuery_trace F _ cid _ u3 u4 now _,
          ensure_trace_paths F _ now, by simp, ?_⟩
        intro r hr
        simp only [List.mem_singleton] at hr
        subst hr
        rfl

/-- C5: the upload pipeline runs before the chat query — in every run of
    `handleSend` all upload requests precede any query request — and if
    any upload response is not ok the send aborts with an error: no
    query is issued, no assistant message is appended to the
    conversation (only the user message), and the attached file list is
    not cleared. -/
theorem claim_C5 (F : Fetch) (st : AppState) (text : String)
    (u1 u2 u3 u4 : String) (now : Nat) :
    (∃ pre post,
      (handleSend F st text u1 u2 u3 u4 now).2 = pre ++ post ∧
      (∀ r ∈ pre, r.path ≠ "/api/query") ∧
      (∀ r ∈ post, r.path ≠ "/api/upload")) ∧
    (∀ conversationId st1,
      jsTrim text ≠ "" → st.sending = false → st.uploading = false →
      (ensureConversation F { st with error := none } now).1 =
        Except.ok (conversationId, st1) →
      st.files ≠ [] →
      (∃ r ∈ (Api.uploadFiles F (some conversationId) st.files).2,
        (F r).ok = false) →
      ((∀ r ∈ (handleSend F st text u1 u2 u3 u4 now).2,
          r.path ≠ "/api/query") ∧
       (handleSend F st text u1 u2 u3 u4 now).1.messages =
         st.messages ++ [{ id := u1, role := "user", content := jsTrim text,
                           createdAt := now }] ∧
       (handleSend F st text u1 u2 u3 u4 now).1.store =
         Store.appendMessage st1.store conversationId
           { id := u1, role := "user", content := jsTrim text,
             createdAt := now } ∧
       (handleSend F st text u1 u2 u3 u4 now).1.files = st.files ∧
       ∃ e, (handleSend F st text u1 u2 u3 u4 now).1.error = some e)) := by
  constructor
  · obtain ⟨t1, t2, t3, heq, h1, h2, h3⟩ :=
      handleSend_shape F st text u1 u2 u3 u4 now
    refine ⟨t1 ++ t2, t3, by simp [heq], ?_, ?_⟩
    · intro r hr
      rcases List.mem_append.mp hr with hr | hr
      · rw [h1 r hr]; decide
      · rw [h2 r hr]; decide
    · intro r hr
      rw [h3 r hr]; decide
  · intro conversationId st1 ht hs hu hens hfne hex
    obtain ⟨hmsg, hfiles, -, -⟩ :=
      ensure_ok_fields F { st with error := none } now conversationId st1 hens
    have hg : ¬ (jsTrim text == "" || !(!st.sending && !st.uploading) ||
        st.uploading) = true := by
      simp [hs, hu, ht]
    have herr : exErr (Api.uploadFiles F (some conversationId) st.files).1
        = true := by
      rw [uploadFiles_err]
      rcases hex with ⟨r, hr, hrok⟩
      exact List.any_eq_true.mpr ⟨r, hr, by simp [hrok]⟩
    have hflen : st1.files.length > 0 := by
      rw [hfiles]
      cases hsf : st.files with
      | nil => exact absurd hsf hfne
      | cons a b => simp
    rcases hup : (Api.uploadFiles F (some conversationId) st1.files).1
      with e2 | v
    swap
    · rw [show st1.files = st.files from hfiles] at hup
      rw [hup] at herr
      simp [exErr] at herr
    have hgoal : handleSend F st text u1 u2 u3 u4 now =
        ({ st1 with
            messages := st1.messages ++
              [{ id := u1, role := "user", content := jsTrim text,
                 createdAt := now }],
            store := Store.appendMessage st1.store conversationId
              { id := u1, role := "user", content := jsTrim text,
                createdAt := now },
            uploading := false,
            error := some ("Error al subir archivos: " ++ e2) },
          (ensureConversation F { st with error := none } now).2 ++
            (Api.uploadFiles F (some conversationId) st1.files).2) := by
      simp only [handleSend]
      rw [if_neg hg, hens]
      dsimp only
      rw [if_pos hflen, hup]
    rw [hgoal]
    refine ⟨?_, by simp [hmsg], rfl, by simp [hfiles], ⟨_, rfl⟩⟩
    intro r hr
    rcases List.mem_append.mp hr with hr | hr
    · rw [ensure_trace_paths F _ now r hr]; decide
    · rw [uploadFiles_paths F _ _ r hr]; decide

/-- Witness for C5: a run whose first upload fails issues no query,
    keeps the attachments and records an error. -/
theorem claim_C5_witness :
    (jsTrim "hola" ≠ "" ∧ stSample.sending = false ∧
      stSample.uploading = false ∧ stSample.files ≠ []) ∧
    ((handleSend envUploadFail stSample "hola" "u1" "u2" "u3" "u4" 0).1.files =
        stSample.files ∧
      ∃ e, (handleSend envUploadFail stSample "hola" "u1" "u2" "u3" "u4"
        0).1.error = some e) := by
  refine ⟨⟨by decide, rfl, rfl, by decide⟩, ?_⟩
  have h := (claim_C5 envUploadFail stSample "hola" "u1" "u2" "u3" "u4" 0).2
    "c1" stSample (by decide) rfl rfl rfl (by decide) ?_
  · exact ⟨h.2.2.2.1, h.2.2.2.2⟩
  · exact ⟨uploadFilesReq (some "c1") { name := "a.txt", size := 3 },
      by decide, rfl⟩

theorem le_fst_of_mem_enumFrom {α : Type} {q : Nat × α} {l : List α}
    {n : Nat} (h : q ∈ l.enumFrom n) : n ≤ q.1 := by
  induction l generalizing n with
  | nil => simp [List.enumFrom] at h
  | cons x t ih =>
    rcases List.mem_cons.mp h with rfl | h2
    · exact Nat.le_refl n
    · exact Nat.le_of_succ_le (ih h2)

theorem enumFrom_pairwise_ne {α : Type} (l : List α) (n : Nat) :
    (l.enumFrom n).Pairwise (fun a b => a.1 ≠ b.1) := by
  induction l generalizing n with
  | nil => exact List.Pairwise.nil
  | cons x t ih =>
    refine List.Pairwise.cons ?_ (ih (n + 1))
    intro q hq
    have := le_fst_of_mem_enumFrom hq
    omega

theorem mem_of_mem_enumFrom {α : Type} {p : Nat × α} {l : List α} {n : Nat}
    (h : p ∈ l.enumFrom n) : p.2 ∈ l := by
  induction l generalizing n with
  | nil => simp [List.enumFrom] at h
  | cons x t ih =>
    rcases List.mem_cons.mp h with rfl | h2
    · exact List.mem_cons_self _ _
    · exact List.mem_cons_of_mem _ (ih h2)

/-- C9: `extractLinks` returns a normalized, duplicate-free list — no
    two entries share a url, every entry's url begins with "http" (bare
    matches are prefixed with "https://"), every entry's host is the
    parsed hostname of its url, and a null or empty input yields the
    empty list. -/
theorem claim_C9 (parseHostname : JStr → Option JStr) (t : JStr) :
    extractLinks parseHostname none = [] ∧
    extractLinks parseHostname (some []) = [] ∧
    (extractLinks parseHostname (some t)).Pairwise
      (fun a b => a.url ≠ b.url) ∧
    (extractLinks parseHostname (some t)).all (fun e =>
      ("http".data.isPrefixOf e.url) &&
      (parseHostname e.url == some e.host) &&
      ((urlScan true t).any (fun m => e.url == linkUrl m))) = true := by
  refine ⟨rfl, rfl, ?_, ?_⟩
  · by_cases ht : t = []
    · subst ht
      exact List.Pairwise.nil
    · simp only [extractLinks, if_neg ht]
      rw [List.pairwise_map]
      have hne : ((((urlScan true t).filterMap (fun u =>
          match parseHostname (linkUrl u) with
          | some h => some { url := linkUrl u, host := h }
          | none => none) : List LinkEntry)).enumFrom 0).Pairwise
          (fun a b => a.1 ≠ b.1) :=
        enumFrom_pairwise_ne _ 0
      refine List.Pairwise.imp_of_mem ?_ (List.Pairwise.filter _ hne)
      intro a b ha hb hab
      have hpa := of_decide_eq_true (List.mem_filter.mp ha).2
      have hpb := of_decide_eq_true (List.mem_filter.mp hb).2
      intro hurl
      apply hab
      rw [hurl] at hpa
      rw [hpa] at hpb
      exact Option.some.inj hpb
  · by_cases ht : t = []
    · subst ht
      rfl
    · rw [List.all_eq_true]
      intro e he
      simp only [extractLinks, if_neg ht] at he
      rcases List.mem_map.mp he with ⟨p, hp, rfl⟩
      have hpl : p.2 ∈ (urlScan true t).filterMap (fun u =>
          match parseHostname (linkUrl u) with
          | some h => some ⟨linkUrl u, h⟩
          | none => none) :=
        mem_of_mem_enumFrom (List.mem_filter.mp hp).1
      rcases List.mem_filterMap.mp hpl with ⟨m, hm, hfm⟩
      rcases hph : parseHostname (linkUrl m) with _ | h
      · rw [hph] at hfm
        cases hfm
      · rw [hph] at hfm
        simp only [Option.some.injEq] at hfm
        rw [← hfm]
        refine (Bool.and_eq_true _ _).mpr ⟨(Bool.and_eq_true _ _).mpr ⟨?_, ?_⟩, ?_⟩
        · simp only [linkUrl]
          split
          · assumption
          · rw [List.isPrefixOf_iff_prefix]
            exact ⟨"s://".data ++ m, by simp⟩
        · simpa using hph
        · exact List.any_eq_true.mpr ⟨m, hm, by simp⟩

/-! Chunked-string toolkit for the markdown safety claim. -/

theorem chunked_mono {T T' : List JStr} {S : Char → Prop} {s : JStr}
    (hsub : ∀ t ∈ T, t ∈ T') (h : Chunked T S s) : Chunked T' S s := by
  induction h with
  | nil => exact .nil
  | char hc _ ih => exact .char hc ih
  | tok ht _ ih => exact .tok (hsub _ ht) ih

theorem chunked_append {T : List JStr} {S : Char → Prop} {a b : JStr}
    (ha : Chunked T S a) (hb : Chunked T S b) : Chunked T S (a ++ b) := by
  induction ha with
  | nil => exact hb
  | char hc _ ih => exact .char hc ih
  | tok ht _ ih => rw [List.append_assoc]; exact .tok ht ih

theorem chunked_all_safe {T : List JStr} {S : Char → Prop} {s : JStr}
    (h : ∀ c ∈ s, S c) : Chunked T S s := by
  induction s with
  | nil => exact .nil
  | cons c t ih =>
    exact .char (h c (by simp)) (ih (fun d hd => h d (by simp [hd])))

theorem chunked_single_tok {T : List JStr} {S : Char → Prop} {t : JStr}
    (h : t ∈ T) : Chunked T S t := by
  have h2 : Chunked T S (t ++ []) := Chunked.tok h .nil
  simpa using h2

theorem chunked_cons_inv {T : List JStr} {S : Char → Prop} {c : Char}
    {s : JStr} (hhead : ∀ t ∈ T, ∀ u, t ≠ c :: u)
    (h : Chunked T S (c :: s)) : S c ∧ Chunked T S s := by
  generalize hs : c :: s = s0 at h
  induction h generalizing c s with
  | nil => cases hs
  | char hc hch =>
    injection hs with h1 h2
    subst h1
    subst h2
    exact ⟨hc, hch⟩
  | tok ht hch ih =>
    rename_i t s'
    cases t with
    | nil => exact ih hhead (by simpa using hs)
    | cons x u =>
      have hx : x = c := by
        simp only [List.cons_append, List.cons.injEq] at hs
        exact hs.1.symm
      exact absurd (by rw [hx] : x :: u = c :: u) (hhead _ ht u)

theorem chunked_split {T : List JStr} {S : Char → Prop} (c : Char)
    (hc : ∀ t ∈ T, c ∉ t) :
    ∀ {s : JStr} (a b : JStr), s = a ++ c :: b → Chunked T S s →
      Chunked T S a ∧ S c ∧ Chunked T S b := by
  intro s a b hs h
  induction h generalizing a b with
  | nil => simp at hs
  | char hSc hch ih =>
    rename_i x s'
    cases a with
    | nil =>
      simp only [List.nil_append, List.cons.injEq] at hs
      rcases hs with ⟨rfl, rfl⟩
      exact ⟨.nil, hSc, hch⟩
    | cons y a' =>
      simp only [List.cons_append, List.cons.injEq] at hs
      rcases hs with ⟨rfl, hs2⟩
      obtain ⟨h1, h2, h3⟩ := ih a' b hs2
      exact ⟨.char hSc h1, h2, h3⟩
  | tok ht hch ih =>
    rename_i t s'
    have hs' : a ++ (c :: b) = t ++ s' := by simpa using hs.symm
    rcases List.append_eq_append_iff.mp hs' with ⟨a2, ht2, hcb⟩ | ⟨c2, ha2, hs2⟩
    · cases a2 with
      | nil =>
        simp only [List.append_nil] at ht2
        obtain ⟨h1, h2, h3⟩ := ih [] b (by simpa using hcb.symm)
        exact ⟨ht2 ▸ chunked_single_tok ht, h2, h3⟩
      | cons z a2' =>
        exfalso
        have hz : z = c := by
          simp only [List.cons_append, List.cons.injEq] at hcb
          exact hcb.1.symm
        apply hc t ht
        rw [ht2, hz]
        simp
    · subst ha2
      obtain ⟨h1, h2, h3⟩ := ih c2 b hs2
      exact ⟨.tok ht h1, h2, h3⟩

theorem chunked_drop_run {T : List JStr} {S : Char → Prop} :
    ∀ (m b : JStr), (∀ c ∈ m, ∀ t ∈ T, c ∉ t) →
      Chunked T S (m ++ b) → Chunked T S b := by
  intro m
  induction m with
  | nil => intro b _ h; simpa using h
  | cons c m' ih =>
    intro b hm h
    have hsp := chunked_split c (hm c (by simp)) [] (m' ++ b) (by simp) h
    exact ih b (fun d hd => hm d (by simp [hd])) hsp.2.2

theorem chunked_split_run_mid {T : List JStr} {S : Char → Prop}
    (m : JStr) (hne : m ≠ []) (a b : JStr)
    (hm : ∀ c ∈ m, ∀ t ∈ T, c ∉ t)
    (h : Chunked T S (a ++ m ++ b)) : Chunked T S a ∧ Chunked T S b := by
  cases m with
  | nil => exact absurd rfl hne
  | cons c m' =>
    have hsp := chunked_split c (hm c (by simp)) a (m' ++ b)
      (by simp [List.append_assoc]) h
    exact ⟨hsp.1, chunked_drop_run m' b
      (fun d hd => hm d (by simp [hd])) hsp.2.2⟩

theorem chunked_strip_chars {T : List JStr} {S : Char → Prop} :
    ∀ (m b : JStr), (∀ c ∈ m, ∀ t ∈ T, ∀ u, t ≠ c :: u) →
      Chunked T S (m ++ b) → Chunked T S b := by
  intro m
  induction m with
  | nil => intro b _ h; simpa using h
  | cons c m' ih =>
    intro b hm h
    have := chunked_cons_inv (hm c (by simp)) (by simpa using h)
    exact ih b (fun d hd => hm d (by simp [hd])) this.2

theorem chunked_dropWhile {T : List JStr} {S : Char → Prop} (p : Char → Bool)
    (hh : ∀ t ∈ T, ∀ c u, t = c :: u → p c = false) {s : JStr}
    (h : Chunked T S s) : Chunked T S (s.dropWhile p) := by
  induction h with
  | nil => exact .nil
  | char hc hch ih =>
    rename_i c s'
    by_cases hp : p c
    · rw [List.dropWhile_cons, if_pos hp]
      exact ih
    · rw [List.dropWhile_cons, if_neg hp]
      exact .char hc hch
  | tok ht hch ih =>
    rename_i t s'
    cases t with
    | nil => simpa using ih
    | cons c u =>
      have hp := hh _ ht c u rfl
      rw [List.cons_append, List.dropWhile_cons, if_neg (by simp [hp])]
      exact .tok ht hch

theorem dropWhile_head_false {p : Char → Bool} :
    ∀ {s : JStr} {c : Char} {rest : JStr},
      s.dropWhile p = c :: rest → p c = false := by
  intro s
  induction s with
  | nil => intro c rest h; cases h
  | cons x t ih =>
    intro c rest h
    by_cases hp : p x
    · rw [List.dropWhile_cons, if_pos hp] at h
      exact ih h
    · rw [List.dropWhile_cons, if_neg hp] at h
      cases h
      exact Bool.of_not_eq_true hp

theorem drop_length_takeWhile (p : Char → Bool) :
    ∀ s : JStr, s.drop (s.takeWhile p).length = s.dropWhile p := by
  intro s
  induction s with
  | nil => rfl
  | cons c t ih =>
    by_cases hp : p c
    · rw [List.takeWhile_cons, if_pos hp, List.dropWhile_cons, if_pos hp]
      simpa using ih
    · rw [List.takeWhile_cons, if_neg hp, List.dropWhile_cons, if_neg hp]
      rfl

theorem chunked_split_isDot {T : List JStr} {S : Char → Prop}
    (hterm : ∀ t ∈ T, '\n' ∉ t ∧ '\r' ∉ t) {s : JStr}
    (h : Chunked T S s) :
    Chunked T S (s.takeWhile isDot) ∧ Chunked T S (s.dropWhile isDot) := by
  cases hd : s.dropWhile isDot with
  | nil =>
    constructor
    · rw [show s.takeWhile isDot = s from ?_]
      · exact h
      · have h2 := List.takeWhile_append_dropWhile isDot s
        rw [hd] at h2
        simpa using h2
    · exact .nil
  | cons c rest =>
    have hpc := dropWhile_head_false hd
    have hcterm : c = '\n' ∨ c = '\r' := by
      simp only [isDot, Bool.not_eq_false', Bool.or_eq_true, beq_iff_eq] at hpc
      exact hpc
    have hcnot : ∀ t ∈ T, c ∉ t := by
      intro t htT hct
      rcases hcterm with rfl | rfl
      · exact (hterm t htT).1 hct
      · exact (hterm t htT).2 hct
    have hs : s = s.takeWhile isDot ++ c :: rest := by
      conv_lhs => rw [← List.takeWhile_append_dropWhile isDot s]
      rw [hd]
    have hsp := chunked_split c hcnot (s.takeWhile isDot) rest hs h
    exact ⟨hsp.1, .char hsp.2.1 hsp.2.2⟩

/-! Lemmas about `replaceChar` and `escapeHtml`. -/

theorem replaceChar_append (c : Char) (rep : JStr) (a b : JStr) :
    replaceChar c rep (a ++ b) =
      replaceChar c rep a ++ replaceChar c rep b := by
  induction a with
  | nil => rfl
  | cons x t ih => simp [replaceChar, ih, List.append_assoc]

theorem replaceChar_eq_self {c : Char} {rep t : JStr} (h : c ∉ t) :
    replaceChar c rep t = t := by
  induction t with
  | nil => rfl
  | cons x u ih =>
    have hx : ¬ x = c := by intro hx; exact h (by simp [hx])
    simp [replaceChar, hx, ih (fun hm => h (by simp [hm]))]

theorem mem_replaceChar {c : Char} {rep s : JStr} {x : Char}
    (h : x ∈ replaceChar c rep s) : x ∈ rep ∨ (x ∈ s ∧ x ≠ c) := by
  induction s with
  | nil => simp [replaceChar] at h
  | cons y t ih =>
    simp only [replaceChar] at h
    rcases List.mem_append.mp h with h2 | h2
    · by_cases hy : y = c
      · rw [if_pos hy] at h2
        exact .inl h2
      · rw [if_neg hy] at h2
        simp only [List.mem_singleton] at h2
        subst h2
        exact .inr ⟨by simp, hy⟩
    · rcases ih h2 with h3 | ⟨h3, h4⟩
      · exact .inl h3
      · exact .inr ⟨by simp [h3], h4⟩

theorem chunked_replaceChar {T T' : List JStr} {S : Char → Prop}
    (c : Char) (rep : JStr)
    (hsub : ∀ t ∈ T, t ∈ T')
    (hcT : ∀ t ∈ T, c ∉ t)
    (hrep : Chunked T' S rep) {s : JStr}
    (h : Chunked T S s) : Chunked T' S (replaceChar c rep s) := by
  induction h with
  | nil => exact .nil
  | char hc hch ih =>
    rename_i x s'
    by_cases hx : x = c
    · simp only [replaceChar, if_pos hx]
      exact chunked_append hrep ih
    · simp only [replaceChar, if_neg hx, List.singleton_append]
      exact .char hc ih
  | tok ht hch ih =>
    rw [replaceChar_append, replaceChar_eq_self (hcT _ ht)]
    exact .tok (hsub _ ht) ih

theorem escapeHtml_no_angle (s : JStr) :
    ∀ c ∈ escapeHtml s, c ≠ '<' ∧ c ≠ '>' := by
  intro c hc
  simp only [escapeHtml] at hc
  rcases mem_replaceChar hc with h1 | ⟨h2, hgt⟩
  · simp only [List.mem_cons, List.not_mem_nil, or_false] at h1
    rcases h1 with rfl | rfl | rfl | rfl <;> exact ⟨by decide, by decide⟩
  · rcases mem_replaceChar h2 with h3 | ⟨h4, hlt⟩
    · simp only [List.mem_cons, List.not_mem_nil, or_false] at h3
      rcases h3 with rfl | rfl | rfl | rfl <;> exact ⟨by decide, by decide⟩
    · rcases mem_replaceChar h4 with h5 | _
      · simp only [List.mem_cons, List.not_mem_nil, or_false] at h5
        rcases h5 with rfl | rfl | rfl | rfl | rfl <;>
          exact ⟨by decide, by decide⟩
      · exact ⟨hlt, hgt⟩

theorem escapeHtml_amp3 (s : JStr) :
    Chunked ampToks3 safeAmp (escapeHtml s) := by
  have h1 : Chunked ["&amp;".data] safeAmp
      (replaceChar '&' ("&amp;".data) s) := by
    induction s with
    | nil => exact .nil
    | cons c t ih =>
      by_cases hc : c = '&'
      · simp only [replaceChar, if_pos hc]
        exact chunked_append (chunked_single_tok (by simp)) ih
      · simp only [replaceChar, if_neg hc, List.singleton_append]
        exact .char hc ih
  have h2 : Chunked ampToks3 safeAmp
      (replaceChar '<' ("&lt;".data)
        (replaceChar '&' ("&amp;".data) s)) :=
    chunked_replaceChar '<' ("&lt;".data)
      (by intro t ht; simp only [List.mem_singleton] at ht; subst ht
          simp [ampToks3])
      (by decide)
      (chunked_single_tok (by simp [ampToks3])) h1
  exact chunked_replaceChar '>' ("&gt;".data)
    (fun t ht => ht) (by decide)
    (chunked_single_tok (by simp [ampToks3])) h2

theorem escQuot_amp (code : JStr) :
    Chunked ampToks safeAmp
      (replaceChar '"' ("&quot;".data) (escapeHtml code)) :=
  chunked_replaceChar '"' ("&quot;".data)
    (by intro t ht
        simp only [ampToks3, List.mem_cons, List.not_mem_nil, or_false] at ht
        rcases ht with rfl | rfl | rfl <;> simp [ampToks])
    (by decide)
    (chunked_single_tok (by simp [ampToks])) (escapeHtml_amp3 code)

theorem escQuot_no_angle (code : JStr) :
    ∀ c ∈ replaceChar '"' ("&quot;".data) (escapeHtml code),
      c ≠ '<' ∧ c ≠ '>' := by
  intro c hc
  rcases mem_replaceChar hc with h1 | ⟨h2, _⟩
  · simp only [List.mem_cons, List.not_mem_nil, or_false] at h1
    rcases h1 with rfl | rfl | rfl | rfl | rfl | rfl <;>
      exact ⟨by decide, by decide⟩
  · exact escapeHtml_no_angle code c h2

theorem codeBlockTemplate_amp (code : JStr) :
    Chunked ampToks safeAmp (codeBlockTemplate code) := by
  simp only [codeBlockTemplate]
  refine chunked_append (chunked_append (chunked_append (chunked_append
    ?_ ?_) ?_) ?_) ?_
  · exact chunked_all_safe (by decide)
  · exact chunked_mono (by
      intro t ht
      simp only [ampToks3, List.mem_cons, List.not_mem_nil, or_false] at ht
      rcases ht with rfl | rfl | rfl <;> simp [ampToks]) (escapeHtml_amp3 code)
  · exact chunked_all_safe (by decide)
  · exact escQuot_amp code
  · exact chunked_all_safe (by decide)

theorem codeBlockTemplate_tag (code : JStr) :
    Chunked tagToks safeAngle (codeBlockTemplate code) := by
  simp only [codeBlockTemplate]
  refine chunked_append (chunked_append (chunked_append (chunked_append
    ?_ ?_) ?_) ?_) ?_
  · exact chunked_single_tok (by simp [tagToks])
  · exact chunked_all_safe (escapeHtml_no_angle code)
  · exact chunked_single_tok (by simp [tagToks])
  · exact chunked_all_safe (escQuot_no_angle code)
  · exact chunked_single_tok (by simp [tagToks])

theorem ticks_chars {T : List JStr} (hbt : ∀ t ∈ T, backtick ∉ t) :
    ∀ c ∈ ticks, ∀ t ∈ T, c ∉ t := by
  intro c hc t ht
  simp only [ticks, List.mem_cons, List.not_mem_nil, or_false] at hc
  rcases hc with rfl | rfl | rfl <;> exact hbt t ht

theorem chunked_codeBlockPass {T : List JStr} {S : Char → Prop}
    (hbt : ∀ t ∈ T, backtick ∉ t)
    (htmpl : ∀ code, Chunked T S (codeBlockTemplate code))
    {s : JStr} (h : Chunked T S s) : Chunked T S (codeBlockPass s) := by
  suffices H : ∀ n (s : JStr), s.length = n → Chunked T S s →
      Chunked T S (codeBlockPass s) from H s.length s rfl h
  intro n
  induction n using Nat.strong_induction_on with
  | _ n ih =>
    intro s hlen hch
    rw [codeBlockPass]
    rcases hb1 : breakOnP ticks s with _ | p
    · exact hch
    · dsimp only
      rcases hb2 : breakOnP ticks p.val.2 with _ | q
      · exact hch
      · have hp := p.property
        have hq := q.property
        have hsp1 := chunked_split_run_mid ticks (by simp [ticks])
          p.val.1 p.val.2 (ticks_chars hbt) (hp ▸ hch)
        have hsp2 := chunked_split_run_mid ticks (by simp [ticks])
          q.val.1 q.val.2 (ticks_chars hbt) (hq ▸ hsp1.2)
        have hlq : q.val.2.length < n := by
          have hl1 := congrArg List.length hp
          have hl2 := congrArg List.length hq
          have hlt : ticks.length = 3 := rfl
          simp only [List.length_append, hlt] at hl1 hl2
          omega
        exact chunked_append (chunked_append hsp1.1 (htmpl q.val.1))
          (ih q.val.2.length hlq q.val.2 rfl hsp2.2)

/-! Preservation of chunking by the heading passes. -/

theorem isPrefixOf_cons_ne {h0 x : Char} {hr l : JStr} (hx : ¬ x = h0) :
    (h0 :: hr).isPrefixOf (x :: l) = false := by
  simp only [List.isPrefixOf, Bool.and_eq_false_iff, beq_eq_false_iff_ne, ne_eq]
  exact Or.inl (fun he => hx he.symm)

theorem headerGo_token_aux (hs openT closeT s : JStr) :
    ∀ (t : JStr) (b : Bool), (∀ c ∈ t, isTerm c = false) → '#' ∉ t →
      hs.head? = some '#' → (t = [] → b = false) →
      headerGo hs openT closeT b (t ++ s) =
        t ++ headerGo hs openT closeT false s := by
  intro t
  induction t with
  | nil =>
    intro b _ _ _ hb
    rw [hb rfl]
    simp
  | cons x u ih =>
    intro b hterm hh hs0 _
    have hx : ¬ x = '#' := fun he => hh (by simp [he])
    have hnp : hs.isPrefixOf (x :: (u ++ s)) = false := by
      cases hs with
      | nil => cases hs0
      | cons h0 hr =>
        simp only [List.head?_cons, Option.some.injEq] at hs0
        subst hs0
        exact isPrefixOf_cons_ne hx
    have hmx : headerMatchAt hs openT closeT (x :: (u ++ s)) = none := by
      simp only [headerMatchAt, hnp]
      simp
    have htx : isTerm x = false := hterm x (by simp)
    have hstep : headerGo hs openT closeT b (x :: (u ++ s)) =
        x :: headerGo hs openT closeT (isTerm x) (u ++ s) := by
      cases b with
      | true =>
        simp only [headerGo]
        rw [if_pos trivial]
        split
        · rename_i r heq
          rw [hmx] at heq
          cases heq
        · rfl
      | false =>
        simp only [headerGo]
        rw [if_neg (by simp)]
    rw [List.cons_append, hstep, htx,
      ih false (fun c hc => hterm c (by simp [hc]))
        (fun hch => hh (by simp [hch])) hs0 (fun _ => rfl)]
    rfl

theorem isTerm_false_of_not_mem {t : JStr} (h1 : '\n' ∉ t) (h2 : '\r' ∉ t) :
    ∀ c ∈ t, isTerm c = false := by
  intro c hc
  simp only [isTerm, Bool.or_eq_false_iff, beq_eq_false_iff_ne, ne_eq]
  exact ⟨fun he => h1 (he ▸ hc), fun he => h2 (he ▸ hc)⟩

theorem chunked_headerGo {T : List JStr} {S : Char → Prop}
    (hs openT closeT : JStr)
    (hhash : ∀ t ∈ T, '#' ∉ t)
    (hterm : ∀ t ∈ T, '\n' ∉ t ∧ '\r' ∉ t)
    (hne : ∀ t ∈ T, t ≠ [])
    (hspc : ∀ t ∈ T, ∀ c u, t = c :: u → isSpace c = false)
    (hsne : hs ≠ []) (hsall : ∀ c ∈ hs, c = '#')
    (hoT : Chunked T S openT) (hcT : Chunked T S closeT) :
    ∀ (b : Bool) {s : JStr}, Chunked T S s →
      Chunked T S (headerGo hs openT closeT b s) := by
  have hs0 : hs.head? = some '#' := by
    cases hs with
    | nil => exact absurd rfl hsne
    | cons h0 hr => rw [hsall h0 (by simp)]; rfl
  suffices H : ∀ n (s : JStr) (b : Bool), s.length = n → Chunked T S s →
      Chunked T S (headerGo hs openT closeT b s) by
    intro b s h
    exact H s.length s b rfl h
  intro n
  induction n using Nat.strong_induction_on with
  | _ n ih =>
    intro s b hlen hch
    cases hch with
    | nil =>
      simp only [headerGo]
      exact .nil
    | char hSc hch2 =>
      rename_i c s'
      rcases hma : headerMatchAt hs openT closeT (c :: s') with _ | r
      · have hstep : headerGo hs openT closeT b (c :: s') =
            c :: headerGo hs openT closeT (isTerm c) s' := by
          cases b with
          | true =>
            simp only [headerGo]
            rw [if_pos trivial]
            split
            · rename_i r heq
              rw [hma] at heq
              cases heq
            · rfl
          | false =>
            simp only [headerGo]
            rw [if_neg (by simp)]
        rw [hstep]
        exact .char hSc (ih s'.length (by simp [← hlen]) s' (isTerm c) rfl hch2)
      · cases b with
        | false =>
          have hstep : headerGo hs openT closeT false (c :: s') =
              c :: headerGo hs openT closeT (isTerm c) s' := by
            simp only [headerGo]
            rw [if_neg (by simp)]
          rw [hstep]
          exact .char hSc (ih s'.length (by simp [← hlen]) s' (isTerm c) rfl
            hch2)
        | true =>
          have hgo : headerGo hs openT closeT true (c :: s') =
              r.1 ++ headerGo hs openT closeT false r.2 := by
            simp only [headerGo]
            rw [if_pos trivial]
            split
            · rename_i r2 heq
              rw [hma] at heq
              injection heq with heq2
              rw [heq2]
            · rename_i heq
              rw [hma] at heq
              cases heq
          simp only [headerMatchAt] at hma
          by_cases hpre : hs.isPrefixOf (c :: s')
          swap
          · rw [if_neg (by simp [hpre])] at hma
            cases hma
          rw [if_pos hpre] at hma
          set rest := (c :: s').drop hs.length with hrest
          set sp := rest.takeWhile isSpace with hsp
          by_cases hsp0 : sp.length = 0
          · rw [if_pos hsp0] at hma
            cases hma
          rw [if_neg hsp0] at hma
          set rest2 := rest.drop sp.length with hrest2
          set content := rest2.takeWhile isDot with hcontent
          injection hma with hma2
          have hr1 : r.1 = openT ++ content ++ closeT := by rw [← hma2]
          have hr2 : r.2 = rest2.drop content.length := by rw [← hma2]
          have hfull : Chunked T S (c :: s') := .char hSc hch2
          have hdecomp : c :: s' = hs ++ rest := by
            have h2 : hs <+: (c :: s') := List.isPrefixOf_iff_prefix.mp hpre
            obtain ⟨w, hw⟩ := h2
            rw [hrest, ← hw, List.drop_left]
          have hrc : Chunked T S rest :=
            chunked_drop_run hs rest
              (fun d hd t htT => (hsall d hd) ▸ hhash t htT)
              (hdecomp ▸ hfull)
          have hrc2 : Chunked T S rest2 := by
            rw [hrest2, drop_length_takeWhile]
            exact chunked_dropWhile isSpace hspc hrc
          have hsplit := chunked_split_isDot hterm hrc2
          have hcc : Chunked T S content := hcontent ▸ hsplit.1
          have hrem : Chunked T S (rest2.drop content.length) := by
            rw [hcontent, drop_length_takeWhile]
            exact hsplit.2
          have hlr2 : r.2.length < n := by
            have e1 : rest.length = n - hs.length := by
              rw [hrest, List.length_drop, hlen]
            have e2 : rest2.length = rest.length - sp.length := by
              rw [hrest2, List.length_drop]
            have e3 : r.2.length = rest2.length - content.length := by
              rw [hr2, List.length_drop]
            have hn1 : 1 ≤ n := by
              rw [← hlen]
              simp
            omega
          rw [hgo, hr1]
          exact chunked_append (chunked_append (chunked_append hoT hcc) hcT)
            (ih r.2.length hlr2 r.2 false rfl (hr2 ▸ hrem))
    | tok htk hch2 =>
      rename_i t s'
      have hlt : s'.length < n := by
        have : t ≠ [] := hne t htk
        have h2 : 1 ≤ t.length := by
          cases t with
          | nil => exact absurd rfl this
          | cons a b => simp
        simp only [List.length_append] at hlen
        omega
      rw [headerGo_token_aux hs openT closeT s' t b
        (isTerm_false_of_not_mem (hterm t htk).1 (hterm t htk).2)
        (hhash t htk) hs0 (fun h => absurd h (hne t htk))]
      exact .tok htk (ih s'.length hlt s' false rfl hch2)

/-! Preservation of chunking by the bold/italics pass. -/

theorem pairPass_token (marker openT closeT : JStr) (hm : marker ≠ [])
    (hm0 : marker.head? = some '*') (s : JStr) :
    ∀ t : JStr, '*' ∉ t →
      pairPass marker openT closeT hm (t ++ s) =
        t ++ pairPass marker openT closeT hm s := by
  intro t
  induction t with
  | nil => simp
  | cons x u ih =>
    intro hh
    have hx : ¬ x = '*' := fun he => hh (by simp [he])
    have hnp : marker.isPrefixOf (x :: (u ++ s)) = false := by
      cases marker with
      | nil => exact absurd rfl hm
      | cons m0 mr =>
        simp only [List.head?_cons, Option.some.injEq] at hm0
        subst hm0
        exact isPrefixOf_cons_ne hx
    rw [List.cons_append]
    simp only [pairPass]
    rw [if_neg (by simp [hnp]), ih (fun hc => hh (by simp [hc]))]
    rfl

theorem chunked_pairPass {T : List JStr} {S : Char → Prop}
    (marker openT closeT : JStr) (hm : marker ≠ [])
    (hmall : ∀ c ∈ marker, c = '*')
    (hstar : ∀ t ∈ T, '*' ∉ t)
    (hne : ∀ t ∈ T, t ≠ [])
    (hoT : Chunked T S openT) (hcT : Chunked T S closeT) :
    ∀ {s : JStr}, Chunked T S s →
      Chunked T S (pairPass marker openT closeT hm s) := by
  have hm0 : marker.head? = some '*' := by
    cases marker with
    | nil => exact absurd rfl hm
    | cons m0 mr => rw [hmall m0 (by simp)]; rfl
  have hchars : ∀ d ∈ marker, ∀ t ∈ T, d ∉ t :=
    fun d hd t ht => (hmall d hd) ▸ hstar t ht
  suffices H : ∀ n (s : JStr), s.length = n → Chunked T S s →
      Chunked T S (pairPass marker openT closeT hm s) by
    intro s h
    exact H s.length s rfl h
  intro n
  induction n using Nat.strong_induction_on with
  | _ n ih =>
    intro s hlen hch
    cases hch with
    | nil =>
      simp only [pairPass]
      exact .nil
    | char hSc hch2 =>
      rename_i c s'
      by_cases hpre : marker.isPrefixOf (c :: s')
      swap
      · have hstep : pairPass marker openT closeT hm (c :: s') =
            c :: pairPass marker openT closeT hm s' := by
          simp only [pairPass]
          rw [if_neg (by simp [hpre])]
        rw [hstep]
        exact .char hSc (ih s'.length (by simp [← hlen]) s' rfl hch2)
      · rcases hcap : lazyCaptureP marker ((c :: s').drop marker.length)
          with _ | p
        · have hstep : pairPass marker openT closeT hm (c :: s') =
              c :: pairPass marker openT closeT hm s' := by
            simp only [pairPass]
            rw [if_pos (by simp [hpre]), hcap]
          rw [hstep]
          exact .char hSc (ih s'.length (by simp [← hlen]) s' rfl hch2)
        · have hstep : pairPass marker openT closeT hm (c :: s') =
              openT ++ p.val.1 ++ closeT ++
                pairPass marker openT closeT hm p.val.2 := by
            simp only [pairPass]
            rw [if_pos (by simp [hpre]), hcap]
          have hdecomp : c :: s' =
              marker ++ (p.val.1 ++ marker ++ p.val.2) := by
            obtain ⟨w, hw⟩ := List.isPrefixOf_iff_prefix.mp hpre
            have hdrop : (c :: s').drop marker.length = w := by
              rw [← hw, List.drop_left]
            rw [← p.property, hdrop]
            exact hw.symm
          have hfull : Chunked T S (c :: s') := .char hSc hch2
          have hrest : Chunked T S (p.val.1 ++ marker ++ p.val.2) :=
            chunked_drop_run marker _ hchars (hdecomp ▸ hfull)
          have hsp := chunked_split_run_mid marker hm p.val.1 p.val.2
            hchars hrest
          have hml : 1 ≤ marker.length := by
            cases marker with
            | nil => exact absurd rfl hm
            | cons a b => simp
          have hlp : p.val.2.length < n := by
            have h2 := congrArg List.length hdecomp
            simp only [List.length_append, List.length_cons] at h2 hlen
            omega
          rw [hstep]
          exact chunked_append (chunked_append (chunked_append hoT hsp.1)
            hcT) (ih p.val.2.length hlp p.val.2 rfl hsp.2)
    | tok htk hch2 =>
      rename_i t s'
      have hlt : s'.length < n := by
        have h2 : 1 ≤ t.length := by
          cases ht2 : t with
          | nil => exact absurd ht2 (hne t htk)
          | cons a b => simp
        simp only [List.length_append] at hlen
        omega
      rw [pairPass_token marker openT closeT hm hm0 s' t (hstar t htk)]
      exact .tok htk (ih s'.length hlt s' rfl hch2)

/-! Preservation of chunking by the inline-code pass. -/

theorem inlineCodePass_token (s : JStr) :
    ∀ t : JStr, backtick ∉ t →
      inlineCodePass (t ++ s) = t ++ inlineCodePass s := by
  intro t
  induction t with
  | nil => simp
  | cons x u ih =>
    intro hh
    have hx : ¬ x = backtick := fun he => hh (by simp [he])
    rw [List.cons_append]
    simp only [inlineCodePass]
    rw [if_neg hx, ih (fun hc => hh (by simp [hc]))]
    rfl

theorem chunked_inlineCodePass {T : List JStr} {S : Char → Prop}
    (hbt : ∀ t ∈ T, backtick ∉ t)
    (hne : ∀ t ∈ T, t ≠ [])
    (hoT : Chunked T S ("<code class=\"code-inline\">".data))
    (hcT : Chunked T S ("</code>".data)) :
    ∀ {s : JStr}, Chunked T S s → Chunked T S (inlineCodePass s) := by
  suffices H : ∀ n (s : JStr), s.length = n → Chunked T S s →
      Chunked T S (inlineCodePass s) by
    intro s h
    exact H s.length s rfl h
  intro n
  induction n using Nat.strong_induction_on with
  | _ n ih =>
    intro s hlen hch
    cases hch with
    | nil =>
      simp only [inlineCodePass]
      exact .nil
    | char hSc hch2 =>
      rename_i c s'
      by_cases hcb : c = backtick
      swap
      · have hstep : inlineCodePass (c :: s') = c :: inlineCodePass s' := by
          simp only [inlineCodePass]
          rw [if_neg hcb]
        rw [hstep]
        exact .char hSc (ih s'.length (by simp [← hlen]) s' rfl hch2)
      · subst hcb
        rcases hdr : s'.drop
            ((s'.takeWhile (fun d => !(d == backtick))).length)
          with _ | ⟨r0, rest2⟩
        · have hstep : inlineCodePass (backtick :: s') =
              backtick :: inlineCodePass s' := by
            simp only [inlineCodePass]
            rw [if_pos trivial]
            split
            · rename_i r1 rest1 heq
              rw [hdr] at heq
              cases heq
            · rfl
          rw [hstep]
          exact .char hSc (ih s'.length (by simp [← hlen]) s' rfl hch2)
        · by_cases hcond : r0 = backtick ∧
              s'.takeWhile (fun d => !(d == backtick)) ≠ []
          · have hstep : inlineCodePass (backtick :: s') =
                "<code class=\"code-inline\">".data ++
                  s'.takeWhile (fun d => !(d == backtick)) ++
                  "</code>".data ++ inlineCodePass rest2 := by
              simp only [inlineCodePass]
              rw [if_pos trivial]
              split
              · rename_i r1 rest1 heq
                rw [hdr] at heq
                injection heq with h1 h2
                subst h1
                subst h2
                rw [if_pos hcond]
              · rename_i heq
                rw [hdr] at heq
                cases heq
            have hdw : s'.dropWhile (fun d => !(d == backtick)) =
                r0 :: rest2 := by
              rw [← drop_length_takeWhile]
              exact hdr
            have hs' : s' = s'.takeWhile (fun d => !(d == backtick)) ++
                r0 :: rest2 := by
              conv_lhs => rw [← List.takeWhile_append_dropWhile
                (fun d => !(d == backtick)) s']
              rw [hdw]
            obtain ⟨hr0b, _⟩ := hcond
            subst hr0b
            have hsp := chunked_split backtick hbt _ _ hs' hch2
            have hlr : rest2.length < n := by
              have h2 := congrArg List.length hs'
              simp only [List.length_append, List.length_cons] at h2 hlen
              omega
            rw [hstep]
            exact chunked_append (chunked_append (chunked_append hoT hsp.1)
              hcT) (ih rest2.length hlr rest2 rfl hsp.2.2)
          · have hstep : inlineCodePass (backtick :: s') =
                backtick :: inlineCodePass s' := by
              simp only [inlineCodePass]
              rw [if_pos trivial]
              split
              · rename_i r1 rest1 heq
                rw [hdr] at heq
                injection heq with h1 h2
                subst h1
                subst h2
                rw [if_neg hcond]
              · rfl
            rw [hstep]
            exact .char hSc (ih s'.length (by simp [← hlen]) s' rfl hch2)
    | tok htk hch2 =>
      rename_i t s'
      have hlt : s'.length < n := by
        have h2 : 1 ≤ t.length := by
          cases ht2 : t with
          | nil => exact absurd ht2 (hne t htk)
          | cons a b => simp
        simp only [List.length_append] at hlen
        omega
      rw [inlineCodePass_token s' t (hbt t htk)]
      exact .tok htk (ih s'.length hlt s' rfl hch2)

/-! Preservation of chunking by the list-item pass. -/

theorem listItemGo_false_token (s : JStr) :
    ∀ t : JStr, (∀ c ∈ t, isTerm c = false) →
      listItemGo false (t ++ s) = t ++ listItemGo false s := by
  intro t
  induction t with
  | nil => simp
  | cons x u ih =>
    intro hterm
    rw [List.cons_append]
    simp only [listItemGo]
    rw [if_neg (by simp), hterm x (by simp),
      ih (fun c hc => hterm c (by simp [hc]))]
    rfl

theorem listItemGo_token (s : JStr) (t : JStr) (b : Bool) (htne : t ≠ [])
    (hterm : ∀ c ∈ t, isTerm c = false)
    (hhead : ∀ c u, t = c :: u → ¬(c = '-' ∨ c = '*')) :
    listItemGo b (t ++ s) = t ++ listItemGo false s := by
  cases t with
  | nil => exact absurd rfl htne
  | cons x u =>
    rw [List.cons_append]
    simp only [listItemGo]
    rw [if_neg (fun hcontra => hhead x u rfl hcontra.2),
      hterm x (by simp),
      listItemGo_false_token s u (fun c hc => hterm c (by simp [hc]))]
    rfl

theorem chunked_listItemGo {T : List JStr} {S : Char → Prop}
    (hterm : ∀ t ∈ T, '\n' ∉ t ∧ '\r' ∉ t)
    (hne : ∀ t ∈ T, t ≠ [])
    (hhead : ∀ t ∈ T, ∀ c u, t = c :: u → ¬(c = '-' ∨ c = '*'))
    (hspc : ∀ t ∈ T, ∀ c u, t = c :: u → isSpace c = false)
    (hspS : ∀ c, isSpace c = true → S c)
    (hliT : Chunked T S ("<li>".data))
    (hliC : Chunked T S ("</li>".data)) :
    ∀ (b : Bool) {s : JStr}, Chunked T S s →
      Chunked T S (listItemGo b s) := by
  suffices H : ∀ n (s : JStr) (b : Bool), s.length = n → Chunked T S s →
      Chunked T S (listItemGo b s) by
    intro b s h
    exact H s.length s b rfl h
  intro n
  induction n using Nat.strong_induction_on with
  | _ n ih =>
    intro s b hlen hch
    cases hch with
    | nil =>
      simp only [listItemGo]
      exact .nil
    | char hSc hch2 =>
      rename_i c s'
      by_cases hg : b = true ∧ (c = '-' ∨ c = '*')
      swap
      · have hstep : listItemGo b (c :: s') =
            c :: listItemGo (isTerm c) s' := by
          simp only [listItemGo]
          rw [if_neg hg]
        rw [hstep]
        exact .char hSc (ih s'.length (by simp [← hlen]) s' (isTerm c) rfl
          hch2)
      · obtain ⟨hb, hcm⟩ := hg
        subst hb
        rcases hma : listItemMatchAt s' with _ | r
        · have hstep : listItemGo true (c :: s') =
              c :: listItemGo (isTerm c) s' := by
            simp only [listItemGo]
            rw [if_pos ⟨by trivial, hcm⟩]
            split
            · rename_i r2 heq
              rw [hma] at heq
              cases heq
            · rfl
          rw [hstep]
          exact .char hSc (ih s'.length (by simp [← hlen]) s' (isTerm c) rfl
            hch2)
        · have hstep : listItemGo true (c :: s') =
              "<li>".data ++ r.1 ++ "</li>".data ++
                listItemGo false r.2 := by
            simp only [listItemGo]
            rw [if_pos ⟨by trivial, hcm⟩]
            split
            · rename_i r2 heq
              rw [hma] at heq
              injection heq with heq2
              rw [heq2]
            · rename_i heq
              rw [hma] at heq
              cases heq
          rw [hstep]
          simp only [listItemMatchAt] at hma
          split at hma
          · cases hma
          · split at hma
            · injection hma with hma2
              have hr1 : r.1 =
                  (s'.drop (s'.takeWhile isSpace).length).takeWhile isDot :=
                by rw [← hma2]
              have hr2 : r.2 =
                  (s'.drop (s'.takeWhile isSpace).length).drop
                    ((s'.drop (s'.takeWhile isSpace).length).takeWhile
                      isDot).length := by rw [← hma2]
              have hafter :
                  Chunked T S (s'.drop (s'.takeWhile isSpace).length) := by
                rw [drop_length_takeWhile]
                exact chunked_dropWhile isSpace hspc hch2
              have hsplit := chunked_split_isDot hterm hafter
              have hcc : Chunked T S r.1 := by
                rw [hr1]
                exact hsplit.1
              have hrem : Chunked T S r.2 := by
                rw [hr2, drop_length_takeWhile]
                exact hsplit.2
              have hlr : r.2.length < n := by
                rw [hr2]
                simp only [List.length_drop, List.length_cons] at hlen ⊢
                omega
              exact chunked_append (chunked_append (chunked_append hliT hcc)
                hliC) (ih r.2.length hlr r.2 false rfl hrem)
            · split at hma
              · cases hma
              · split at hma
                · rename_i c0 rest heq
                  split at hma
                  · injection hma with hma2
                    have hr1 : r.1 = [c0] := by rw [← hma2]
                    have hr2 : r.2 = (s'.takeWhile isSpace).drop
                        ((s'.takeWhile isSpace).reverse.dropWhile
                          (fun d => !(isDot d))).length := by rw [← hma2]
                    have hc0sp : isSpace c0 = true := by
                      have h3 : c0 ∈ (s'.takeWhile isSpace).reverse.dropWhile
                          (fun d => !(isDot d)) := by
                        rw [heq]
                        simp
                      have hmem : c0 ∈ (s'.takeWhile isSpace).reverse :=
                        (List.dropWhile_suffix _).subset h3
                      exact List.mem_takeWhile_imp (List.mem_reverse.mp hmem)
                    have hcc : Chunked T S r.1 := by
                      rw [hr1]
                      exact .char (hspS c0 hc0sp) .nil
                    have hrem : Chunked T S r.2 := by
                      rw [hr2]
                      exact chunked_all_safe (fun d hd =>
                        hspS d (List.mem_takeWhile_imp
                          (List.drop_subset _ _ hd)))
                    have hlr : r.2.length < n := by
                      rw [hr2]
                      have h1 : (s'.takeWhile isSpace).length ≤ s'.length :=
                        (List.takeWhile_prefix isSpace :
                          s'.takeWhile isSpace <+: s').length_le
                      simp only [List.length_drop, List.length_cons]
                        at hlen ⊢
                      omega
                    exact chunked_append (chunked_append (chunked_append hliT
                      hcc) hliC) (ih r.2.length hlr r.2 false rfl hrem)
                  · cases hma
                · cases hma
    | tok htk hch2 =>
      rename_i t s'
      have hlt : s'.length < n := by
        have h2 : 1 ≤ t.length := by
          cases ht2 : t with
          | nil => exact absurd ht2 (hne t htk)
          | cons a b => simp
        simp only [List.length_append] at hlen
        omega
      rw [listItemGo_token s' t b (hne t htk)
        (isTerm_false_of_not_mem (hterm t htk).1 (hterm t htk).2)
        (hhead t htk)]
      exact .tok htk (ih s'.length hlt s' false rfl hch2)

/-! Splitting a chunked string at an occurrence of a whole token, for the
    final `<ul>` wrap.  The occurrence condition `hocc` says that `pat`
    can overlap a token of `T` only by being that whole token. -/

theorem chunked_split_tok {T : List JStr} {S : Char → Prop} (pat : JStr)
    (hpne : pat ≠ [])
    (hsafe1 : ∀ c, S c → ∀ u, pat ≠ c :: u)
    (hocc : ∀ t ∈ T, ∀ k, k < t.length →
      ((t.drop k).isPrefixOf pat = false ∧
        pat.isPrefixOf (t.drop k) = false) ∨ (k = 0 ∧ t = pat)) :
    ∀ {s : JStr} (a b : JStr), s = a ++ pat ++ b → Chunked T S s →
      Chunked T S a ∧ Chunked T S b := by
  intro s a b hs h
  induction h generalizing a b with
  | nil =>
    exfalso
    have h2 := congrArg List.length hs
    have h3 : 1 ≤ pat.length := by
      cases pat with
      | nil => exact absurd rfl hpne
      | cons p q => simp
    simp only [List.length_nil, List.length_append] at h2
    omega
  | char hSc hch ih =>
    rename_i x s'
    cases a with
    | nil =>
      exfalso
      simp only [List.nil_append] at hs
      cases pat with
      | nil => exact hpne rfl
      | cons p0 pr =>
        simp only [List.cons_append, List.cons.injEq] at hs
        exact hsafe1 x hSc pr (by rw [hs.1])
    | cons y a' =>
      simp only [List.cons_append, List.cons.injEq] at hs
      obtain ⟨rfl, hs2⟩ := hs
      obtain ⟨h1, h2⟩ := ih a' b hs2
      exact ⟨.char hSc h1, h2⟩
  | tok ht hch ih =>
    rename_i t s'
    have hs' : a ++ (pat ++ b) = t ++ s' := by
      simpa [List.append_assoc] using hs.symm
    rcases List.append_eq_append_iff.mp hs' with ⟨a2, ht2, hpb⟩ |
      ⟨c2, ha2, hs2⟩
    · cases a2 with
      | nil =>
        simp only [List.append_nil] at ht2
        obtain ⟨h1, h2⟩ := ih [] b (by simpa using hpb.symm)
        refine ⟨?_, h2⟩
        rw [← ht2]
        exact chunked_single_tok ht
      | cons z a2' =>
        have hk : a.length < t.length := by
          rw [ht2]
          simp only [List.length_append, List.length_cons]
          omega
        have hdrop : t.drop a.length = z :: a2' := by
          rw [ht2, List.drop_left]
        rcases hocc t ht a.length hk with ⟨hno1, hno2⟩ | ⟨hk0, htp⟩
        · exfalso
          by_cases hle : pat.length ≤ (z :: a2').length
          · have hp1 : pat <+: (z :: a2') ++ s' := ⟨b, by rw [hpb]⟩
            have hp2 : (z :: a2') <+: (z :: a2') ++ s' :=
              List.prefix_append _ _
            have hp3 : pat <+: (z :: a2') :=
              List.prefix_of_prefix_length_le hp1 hp2 hle
            rw [← hdrop] at hp3
            exact absurd (List.isPrefixOf_iff_prefix.mpr hp3)
              (by simp [hno2])
          · have hle2 : (z :: a2').length ≤ pat.length :=
              Nat.le_of_not_le hle
            have hp1 : (z :: a2') <+: pat ++ b := ⟨s', hpb.symm⟩
            have hp2 : pat <+: pat ++ b := List.prefix_append _ _
            have hp3 : (z :: a2') <+: pat :=
              List.prefix_of_prefix_length_le hp1 hp2 hle2
            rw [← hdrop] at hp3
            exact absurd (List.isPrefixOf_iff_prefix.mpr hp3)
              (by simp [hno1])
        · have ha : a = [] := List.length_eq_zero.mp hk0
          subst ha
          simp only [List.nil_append] at ht2
          rw [htp] at ht2
          rw [← ht2] at hpb
          have hb2 : b = s' := List.append_cancel_left hpb
          constructor
          · exact .nil
          · rw [hb2]
            exact hch
    · subst ha2
      obtain ⟨h1, h2⟩ := ih c2 b (by simpa [List.append_assoc] using hs2)
      exact ⟨.tok ht h1, h2⟩

/-- Transfers a decidable head condition on the one-element `take` to the
    cons decomposition used by the scanner lemmas. -/
theorem head_cond_of_take {T : List JStr} {P : Char → Prop}
    (h : ∀ t ∈ T, ∀ c ∈ t.take 1, P c) :
    ∀ t ∈ T, ∀ c u, t = c :: u → P c := by
  intro t ht c u heq
  exact h t ht c (by rw [heq]; simp)

theorem neq_cons_of_take {T : List JStr} {m : JStr}
    (h : ∀ c ∈ m, ∀ t ∈ T, ∀ d ∈ t.take 1, d ≠ c) :
    ∀ c ∈ m, ∀ t ∈ T, ∀ u, t ≠ c :: u := by
  intro c hc t ht u heq
  exact h c hc t ht c (by rw [heq]; simp) rfl

theorem space_safeAngle : ∀ c, isSpace c = true → safeAngle c := by
  intro c hc
  simp only [isSpace, Bool.or_eq_true, beq_iff_eq] at hc
  rcases hc with ((((rfl | rfl) | rfl) | rfl) | rfl) | rfl <;>
    exact ⟨by decide, by decide⟩

theorem space_safeAmp : ∀ c, isSpace c = true → safeAmp c := by
  intro c hc
  simp only [isSpace, Bool.or_eq_true, beq_iff_eq] at hc
  rcases hc with ((((rfl | rfl) | rfl) | rfl) | rfl) | rfl <;> decide

/-! Preservation of chunking by the `<ul>` wrap. -/

theorem tagSafe_liWrapPass {s : JStr} (h : Chunked tagToks safeAngle s) :
    Chunked tagToks safeAngle (liWrapPass s) := by
  rw [liWrapPass]
  rcases hb1 : breakOnP ("<li>".data) s with _ | p
  · exact h
  · dsimp only
    rcases hb2 : breakOnLastP ("</li>".data) (by simp) p.val.2 with _ | q
    · exact h
    · have hsafe1 : ∀ c, safeAngle c →
          ∀ u, ("<li>".data : JStr) ≠ c :: u := by
        intro c hc u heq
        have h3 : ('<' : Char) :: "li>".data = c :: u := heq
        injection h3 with h4 h5
        exact hc.1 h4.symm
      have hsafe2 : ∀ c, safeAngle c →
          ∀ u, ("</li>".data : JStr) ≠ c :: u := by
        intro c hc u heq
        have h3 : ('<' : Char) :: "/li>".data = c :: u := heq
        injection h3 with h4 h5
        exact hc.1 h4.symm
      have hocc1 : ∀ t ∈ tagToks, ∀ k, k < t.length →
          ((t.drop k).isPrefixOf ("<li>".data) = false ∧
            ("<li>".data).isPrefixOf (t.drop k) = false) ∨
          (k = 0 ∧ t = "<li>".data) := by decide
      have hocc2 : ∀ t ∈ tagToks, ∀ k, k < t.length →
          ((t.drop k).isPrefixOf ("</li>".data) = false ∧
            ("</li>".data).isPrefixOf (t.drop k) = false) ∨
          (k = 0 ∧ t = "</li>".data) := by decide
      have hsp1 := chunked_split_tok ("<li>".data) (by simp) hsafe1 hocc1
        p.val.1 p.val.2 p.property h
      have hsp2 := chunked_split_tok ("</li>".data) (by simp) hsafe2 hocc2
        q.val.1 q.val.2 q.property hsp1.2
      exact chunked_append (chunked_append (chunked_append (chunked_append
        (chunked_append (chunked_append hsp1.1
          (chunked_single_tok (by simp [tagToks])))
          (chunked_single_tok (by simp [tagToks]))) hsp2.1)
        (chunked_single_tok (by simp [tagToks])))
        (chunked_single_tok (by simp [tagToks]))) hsp2.2

theorem ampSafe_liWrapPass {s : JStr} (h : Chunked ampToks safeAmp s) :
    Chunked ampToks safeAmp (liWrapPass s) := by
  rw [liWrapPass]
  rcases hb1 : breakOnP ("<li>".data) s with _ | p
  · exact h
  · dsimp only
    rcases hb2 : breakOnLastP ("</li>".data) (by simp) p.val.2 with _ | q
    · exact h
    · have hlt : ∀ t ∈ ampToks, '<' ∉ t := by decide
      have hli : ("<li>".data : JStr) = '<' :: "li>".data := rfl
      have hlic : ("</li>".data : JStr) = '<' :: "/li>".data := rfl
      have hdec1 : s = p.val.1 ++ '<' :: ("li>".data ++ p.val.2) := by
        conv_lhs => rw [p.property]
        show (p.val.1 ++ '<' :: "li>".data) ++ p.val.2 = _
        simp [List.append_assoc]
      have hsp1 := chunked_split '<' hlt p.val.1 _ hdec1 h
      have hp2 : Chunked ampToks safeAmp p.val.2 :=
        chunked_strip_chars ("li>".data) p.val.2
          (neq_cons_of_take (by decide)) hsp1.2.2
      have hdec2 : p.val.2 = q.val.1 ++ '<' :: ("/li>".data ++ q.val.2) := by
        conv_lhs => rw [q.property]
        show (q.val.1 ++ '<' :: "/li>".data) ++ q.val.2 = _
        simp [List.append_assoc]
      have hsp2 := chunked_split '<' hlt q.val.1 _ hdec2 hp2
      have hq2 : Chunked ampToks safeAmp q.val.2 :=
        chunked_strip_chars ("/li>".data) q.val.2
          (neq_cons_of_take (by decide)) hsp2.2.2
      exact chunked_append (chunked_append (chunked_append (chunked_append
        (chunked_append (chunked_append hsp1.1
          (chunked_all_safe (by decide)))
          (chunked_all_safe (by decide))) hsp2.1)
        (chunked_all_safe (by decide)))
        (chunked_all_safe (by decide))) hq2

/-! Assembly: the full transformation chain preserves both chunkings. -/

theorem tagSafe_mdTransforms_escape (s : JStr) :
    Chunked tagToks safeAngle (mdTransforms (escapeHtml s)) := by
  have hterm : ∀ t ∈ tagToks, '\n' ∉ t ∧ '\r' ∉ t := by decide
  have hne : ∀ t ∈ tagToks, t ≠ [] := by decide
  have hspc : ∀ t ∈ tagToks, ∀ c u, t = c :: u → isSpace c = false :=
    head_cond_of_take (by decide)
  have hhead : ∀ t ∈ tagToks, ∀ c u, t = c :: u → ¬(c = '-' ∨ c = '*') :=
    head_cond_of_take (by decide)
  have hhash : ∀ t ∈ tagToks, '#' ∉ t := by decide
  have hstar : ∀ t ∈ tagToks, '*' ∉ t := by decide
  have hbt : ∀ t ∈ tagToks, backtick ∉ t := by decide
  have h0 : Chunked tagToks safeAngle (escapeHtml s) :=
    chunked_all_safe (escapeHtml_no_angle s)
  have h1 := chunked_codeBlockPass hbt codeBlockTemplate_tag h0
  have h2 := chunked_headerGo ['#', '#', '#'] ("<h3>".data) ("</h3>".data)
    hhash hterm hne hspc (by simp) (by decide)
    (chunked_single_tok (by simp [tagToks]))
    (chunked_single_tok (by simp [tagToks])) true h1
  have h3 := chunked_headerGo ['#', '#'] ("<h2>".data) ("</h2>".data)
    hhash hterm hne hspc (by simp) (by decide)
    (chunked_single_tok (by simp [tagToks]))
    (chunked_single_tok (by simp [tagToks])) true h2
  have h4 := chunked_headerGo ['#'] ("<h1>".data) ("</h1>".data)
    hhash hterm hne hspc (by simp) (by decide)
    (chunked_single_tok (by simp [tagToks]))
    (chunked_single_tok (by simp [tagToks])) true h3
  have h5 := chunked_pairPass ['*', '*'] ("<strong>".data)
    ("</strong>".data) (by simp) (by decide) hstar hne
    (chunked_single_tok (by simp [tagToks]))
    (chunked_single_tok (by simp [tagToks])) h4
  have h6 := chunked_pairPass ['*'] ("<em>".data) ("</em>".data)
    (by simp) (by decide) hstar hne
    (chunked_single_tok (by simp [tagToks]))
    (chunked_single_tok (by simp [tagToks])) h5
  have h7 := chunked_inlineCodePass hbt hne
    (chunked_single_tok (by simp [tagToks]))
    (chunked_single_tok (by simp [tagToks])) h6
  have h8 := chunked_listItemGo hterm hne hhead hspc space_safeAngle
    (chunked_single_tok (by simp [tagToks]))
    (chunked_single_tok (by simp [tagToks])) true h7
  have h9 := tagSafe_liWrapPass h8
  have h10 := chunked_replaceChar '\n' ("<br />".data) (fun t ht => ht)
    (by decide) (chunked_single_tok (by simp [tagToks])) h9
  simpa only [mdTransforms, headerPass] using h10

theorem ampSafe_mdTransforms_escape (s : JStr) :
    Chunked ampToks safeAmp (mdTransforms (escapeHtml s)) := by
  have hterm : ∀ t ∈ ampToks, '\n' ∉ t ∧ '\r' ∉ t := by decide
  have hne : ∀ t ∈ ampToks, t ≠ [] := by decide
  have hspc : ∀ t ∈ ampToks, ∀ c u, t = c :: u → isSpace c = false :=
    head_cond_of_take (by decide)
  have hhead : ∀ t ∈ ampToks, ∀ c u, t = c :: u → ¬(c = '-' ∨ c = '*') :=
    head_cond_of_take (by decide)
  have hhash : ∀ t ∈ ampToks, '#' ∉ t := by decide
  have hstar : ∀ t ∈ ampToks, '*' ∉ t := by decide
  have hbt : ∀ t ∈ ampToks, backtick ∉ t := by decide
  have h0 : Chunked ampToks safeAmp (escapeHtml s) :=
    chunked_mono (by decide) (escapeHtml_amp3 s)
  have h1 := chunked_codeBlockPass hbt codeBlockTemplate_amp h0
  have h2 := chunked_headerGo ['#', '#', '#'] ("<h3>".data) ("</h3>".data)
    hhash hterm hne hspc (by simp) (by decide)
    (chunked_all_safe (by decide)) (chunked_all_safe (by decide)) true h1
  have h3 := chunked_headerGo ['#', '#'] ("<h2>".data) ("</h2>".data)
    hhash hterm hne hspc (by simp) (by decide)
    (chunked_all_safe (by decide)) (chunked_all_safe (by decide)) true h2
  have h4 := chunked_headerGo ['#'] ("<h1>".data) ("</h1>".data)
    hhash hterm hne hspc (by simp) (by decide)
    (chunked_all_safe (by decide)) (chunked_all_safe (by decide)) true h3
  have h5 := chunked_pairPass ['*', '*'] ("<strong>".data)
    ("</strong>".data) (by simp) (by decide) hstar hne
    (chunked_all_safe (by decide)) (chunked_all_safe (by decide)) h4
  have h6 := chunked_pairPass ['*'] ("<em>".data) ("</em>".data)
    (by simp) (by decide) hstar hne
    (chunked_all_safe (by decide)) (chunked_all_safe (by decide)) h5
  have h7 := chunked_inlineCodePass hbt hne
    (chunked_all_safe (by decide)) (chunked_all_safe (by decide)) h6
  have h8 := chunked_listItemGo hterm hne hhead hspc space_safeAmp
    (chunked_all_safe (by decide)) (chunked_all_safe (by decide)) true h7
  have h9 := ampSafe_liWrapPass h8
  have h10 := chunked_replaceChar '\n' ("<br />".data) (fun t ht => ht)
    (by decide) (chunked_all_safe (by decide)) h9
  simpa only [mdTransforms, headerPass] using h10

theorem tagSafe_basicMarkdownToHtml (md : Option JStr) :
    TagSafe (basicMarkdownToHtml md) := by
  unfold TagSafe
  cases md with
  | none => exact .nil
  | some s =>
    simp only [basicMarkdownToHtml]
    split
    · exact .nil
    · exact tagSafe_mdTransforms_escape s

theorem ampSafe_basicMarkdownToHtml (md : Option JStr) :
    AmpSafe (basicMarkdownToHtml md) := by
  unfold AmpSafe
  cases md with
  | none => exact .nil
  | some s =>
    simp only [basicMarkdownToHtml]
    split
    · exact .nil
    · exact ampSafe_mdTransforms_escape s

/-- C8: `basicMarkdownToHtml` escapes the HTML metacharacters of its
    input before any markdown transformation: a null or empty input
    yields the empty string; every other input is first entity-escaped
    (after which no `<` or `>` character remains) and only then
    transformed; and every output is a concatenation of converter-emitted
    tag fragments and angle-bracket-free characters (`TagSafe`), in which
    every `&` starts a converter-emitted HTML entity (`AmpSafe`). -/
theorem claim_C8 (md : Option JStr) (s : JStr) :
    basicMarkdownToHtml none = [] ∧
    basicMarkdownToHtml (some []) = [] ∧
    basicMarkdownToHtml (some s) =
      (if s = [] then [] else mdTransforms (escapeHtml s)) ∧
    (escapeHtml s).all (fun c => !(c == '<') && !(c == '>')) = true ∧
    TagSafe (basicMarkdownToHtml md) ∧
    AmpSafe (basicMarkdownToHtml md) := by
  refine ⟨rfl, by simp [basicMarkdownToHtml], rfl, ?_,
    tagSafe_basicMarkdownToHtml md, ampSafe_basicMarkdownToHtml md⟩
  rw [List.all_eq_true]
  intro c hc
  have h2 := escapeHtml_no_angle s c hc
  simp only [Bool.and_eq_true, Bool.not_eq_true', beq_eq_false_iff_ne,
    ne_eq]
  exact ⟨h2.1, h2.2⟩

end QABot
